import Mathlib

/-!
Verification of the generator-detection compression engine in
`src/ljpw/real_compressor.py` (class `SemanticCompressor`, dataclass
`CompressedData`, and the `find_*` pattern detectors).

Modelling conventions (shallow embedding of the Python source):
* Python `bytes` is `List Nat` (each entry a byte value `< 256`).
* Python `str` is Lean `String` / `List Char` (unicode code points).
* Python unbounded `int` is `Int` (or `Nat` where the source value is a length).
* Python `float` values (`ratio()` results, the geometric ratio seed) are
  modelled as exact rationals `ℚ`; every comparison proved below has a margin
  far larger than double rounding error.
* Fallible operations return `Except String _` / `Option _`; a raised Python
  exception is an `.error`.
* `hashlib.sha256(data).hexdigest()[:32]` is an external primitive; the whole
  development is parameterised over `hash : List Nat → String` standing for it.
  Concrete instantiations in closed theorems keep the two properties of the
  real digest that the code relies on: every output has length 32 and consists
  of plain hex characters, and distinct relevant inputs get distinct digests.
* Bounded `while` loops of the source are translated with an explicit fuel
  argument large enough to cover the source's reachable iterations, so all
  definitions are structurally recursive and kernel-computable.
-/

/-- Python `bytes`: a list of byte values. -/
abbrev Bytes := List Nat

/-- `pattern * count` on Python bytes/lists: `count` copies concatenated. -/
def repeatList (p : List Nat) : Nat → List Nat
  | 0 => []
  | n + 1 => p ++ repeatList p n

/-- The decimal digit character for `d < 10` (as produced by Python `str(int)`
and `json.dumps` for integers). -/
def digitChar (d : Nat) : Char := Char.ofNat (48 + d)

/-- Fuel-driven decimal rendering helper (most significant digit first);
the fuel always exceeds the number of digits at every call site. -/
def natDecAux : Nat → Nat → List Char
  | 0, _ => []
  | f + 1, n => if n < 10 then [digitChar n] else natDecAux f (n / 10) ++ [digitChar (n % 10)]

/-- Decimal rendering of a natural number, as emitted by Python `str` /
`json.dumps` for non-negative integers. -/
def natDec (n : Nat) : List Char := natDecAux (n + 1) n

/-- Decimal rendering of a Python `int` (with `-` sign for negatives). -/
def intDec (i : Int) : List Char :=
  if i < 0 then '-' :: natDec i.natAbs else natDec i.natAbs

/-- Python truncation toward zero, `int(q)` on an exact rational. -/
def ratTrunc (q : ℚ) : Int := q.num / (q.den : Int)

/-- Lowercase hex digit (as produced by Python `bytes.hex()`). -/
def hexDigit (d : Nat) : Char :=
  if d < 10 then Char.ofNat (48 + d) else Char.ofNat (87 + d)

/-- Python `bytes.hex()`: two lowercase hex characters per byte. -/
def hexEncode : Bytes → List Char
  | [] => []
  | b :: rest => hexDigit (b / 16) :: hexDigit (b % 16) :: hexEncode rest

/-- Value of one hex character, `none` on a non-hex character. -/
def hexVal (c : Char) : Option Nat :=
  if 48 ≤ c.toNat ∧ c.toNat ≤ 57 then some (c.toNat - 48)
  else if 97 ≤ c.toNat ∧ c.toNat ≤ 102 then some (c.toNat - 87)
  else if 65 ≤ c.toNat ∧ c.toNat ≤ 70 then some (c.toNat - 55)
  else none

/-- Python `bytes.fromhex` on a string without whitespace: pairs of hex
characters; fails (`ValueError`) on odd length or non-hex characters.
(`fromhex` additionally allows ASCII spaces between pairs; no claim here
depends on that, so spaces are not modelled.) -/
def hexDecode : List Char → Option Bytes
  | [] => some []
  | [_] => none
  | c1 :: c2 :: rest => do
      let h1 ← hexVal c1
      let h2 ← hexVal c2
      let tl ← hexDecode rest
      pure ((h1 * 16 + h2) :: tl)

/-- `struct.pack('<I', n)`: 4-byte little-endian encoding (the source only
packs payload lengths; for lengths `≥ 2^32` Python raises, which no claim
exercises — the truncation keeps the definition total without changing any
output length). -/
def u32le (n : Nat) : Bytes :=
  [n % 256, n / 256 % 256, n / 65536 % 256, n / 16777216 % 256]

/-- UTF-8 encoding of a single unicode code point. -/
def charUtf8 (c : Char) : Bytes :=
  let n := c.toNat
  if n < 128 then [n]
  else if n < 2048 then [192 + n / 64, 128 + n % 64]
  else if n < 65536 then [224 + n / 4096, 128 + n / 64 % 64, 128 + n % 64]
  else [240 + n / 262144, 128 + n / 4096 % 64, 128 + n / 64 % 64, 128 + n % 64]

/-- Python `str.encode('utf-8')`. -/
def utf8EncodeL (s : List Char) : Bytes := (s.map charUtf8).flatten

/-- One step of strict UTF-8 decoding (`bytes.decode('utf-8')`): decode the
code point starting with byte `b`, returning it and the remaining bytes;
rejects stray continuation bytes, truncated and overlong encodings,
surrogates, and code points beyond U+10FFFF, like CPython's strict decoder. -/
def utf8Step (b : Nat) (rest : Bytes) : Option (Char × Bytes) :=
  if b < 128 then some (Char.ofNat b, rest)
  else if b < 192 then none
  else if b < 224 then
    match rest with
    | b2 :: rest2 =>
      if 128 ≤ b2 ∧ b2 < 192 then
        let n := (b - 192) * 64 + (b2 - 128)
        if n < 128 then none else some (Char.ofNat n, rest2)
      else none
    | _ => none
  else if b < 240 then
    match rest with
    | b2 :: b3 :: rest2 =>
      if (128 ≤ b2 ∧ b2 < 192) ∧ (128 ≤ b3 ∧ b3 < 192) then
        let n := (b - 224) * 4096 + (b2 - 128) * 64 + (b3 - 128)
        if n < 2048 ∨ (55296 ≤ n ∧ n ≤ 57343) then none else some (Char.ofNat n, rest2)
      else none
    | _ => none
  else if b < 248 then
    match rest with
    | b2 :: b3 :: b4 :: rest2 =>
      if (128 ≤ b2 ∧ b2 < 192) ∧ (128 ≤ b3 ∧ b3 < 192) ∧ (128 ≤ b4 ∧ b4 < 192) then
        let n := (b - 240) * 262144 + (b2 - 128) * 4096 + (b3 - 128) * 64 + (b4 - 128)
        if n < 65536 ∨ 1114111 < n then none else some (Char.ofNat n, rest2)
      else none
    | _ => none
  else none

/-- Fuelled decoding loop; every step consumes at least the lead byte, so
fuel `data.length` always suffices. -/
def utf8DecodeAux : Nat → Bytes → Option (List Char)
  | _, [] => some []
  | 0, _ :: _ => none
  | f + 1, b :: rest =>
    match utf8Step b rest with
    | none => none
    | some (c, rem) =>
      match utf8DecodeAux f rem with
      | none => none
      | some tl => some (c :: tl)

/-- `bytes.decode('utf-8')` (strict). -/
def utf8DecodeL (data : Bytes) : Option (List Char) := utf8DecodeAux data.length data

/-! ## Pattern detection (`find_*` functions of `real_compressor.py`) -/

/-- One candidate check plus the upward scan of `find_repeating_pattern`:
tries pattern lengths `L, L+1, ...` while fuel lasts (fuel is the number of
candidate lengths still to try, so the loop is `range(1, n//2 + 1)`). -/
def frpFrom (data : Bytes) (n : Nat) : Nat → Nat → Option (Bytes × Nat)
  | _, 0 => none
  | L, f + 1 =>
    if n % L = 0 ∧ repeatList (data.take L) (n / L) = data then
      some (data.take L, n / L)
    else frpFrom data n (L + 1) f

/-- `find_repeating_pattern(data)`: smallest `pattern_len` in `1..n//2` with
`n % pattern_len == 0` and `pattern * count == data`; `None` otherwise
(including the empty input). -/
def find_repeating_pattern (data : Bytes) : Option (Bytes × Nat) :=
  let n := data.length
  if n = 0 then none else frpFrom data n 1 (n / 2)

/-- `find_arithmetic_sequence(numbers)`: start and step are read off the first
two terms and the whole list must equal `[start + i*step for i in range(count)]`. -/
def find_arithmetic_sequence (numbers : List Int) : Option (Int × Int × Nat) :=
  match numbers with
  | a :: b :: _ =>
    let step := b - a
    let count := numbers.length
    if (List.range count).map (fun (i : Nat) => a + (i : Int) * step) = numbers then
      some (a, step, count)
    else none
  | _ => none

/-- `find_geometric_sequence(numbers)`. The Python ratio `numbers[1]/numbers[0]`
is a float; it is modelled as the exact rational, and `int(...)` as truncation
toward zero. -/
def find_geometric_sequence (numbers : List Int) : Option (Int × ℚ × Nat) :=
  match numbers with
  | a :: b :: _ =>
    if a = 0 then none
    else if b = 0 then none
    else
      let rq : ℚ := (b : ℚ) / (a : ℚ)
      let count := numbers.length
      if (List.range count).map (fun i => ratTrunc ((a : ℚ) * rq ^ i)) = numbers then
        some (a, rq, count)
      else none
  | _ => none

/-- The sequence built by `find_fibonacci_like`'s loop (`seq = [a, b]` then
`seq.append(seq[-1] + seq[-2])`), in forward form: the first `k` terms of the
recurrence seeded by `(a, b)`. -/
def fibForward (a b : Int) : Nat → List Int
  | 0 => []
  | k + 1 => a :: fibForward b (a + b) k

/-- `find_fibonacci_like(numbers)`: needs at least 3 terms; the list must equal
`[a, b]` extended by `seq.append(seq[-1] + seq[-2])`, `count - 2` times —
which is the first `count` terms of the forward recurrence from `(a, b)`. -/
def find_fibonacci_like (numbers : List Int) : Option (Int × Int × Nat) :=
  if numbers.length < 3 then none
  else
    match numbers with
    | a :: b :: _ =>
      let count := numbers.length
      if fibForward a b count = numbers then some (a, b, count) else none
    | _ => none

/-- `find_powers(numbers)`: first term must be `1`, second the base `> 1`, and
the list must equal `[base ** i for i in range(count)]`. -/
def find_powers (numbers : List Int) : Option (Int × Nat) :=
  match numbers with
  | a :: b :: _ =>
    if a ≠ 1 then none
    else if b ≤ 1 then none
    else
      let count := numbers.length
      if (List.range count).map (fun i => b ^ i) = numbers then some (b, count)
      else none
  | _ => none

/-- The trial-division primality test `is_prime` of `find_primes_sequence`:
no divisor in `range(2, int(n**0.5) + 1)`. (`int(n**0.5)` is `Nat.sqrt` for
all integers small enough for the float square root to be exact.) -/
def isPrimeTrial (n : Int) : Bool :=
  if n < 2 then false
  else (List.range' 2 (Nat.sqrt n.toNat - 1)).all (fun i => n % (i : Int) ≠ 0)

/-- The `get_primes` while loop: scan candidates `2, 3, ...` collecting values
passing `isPrimeTrial` until `n` primes are found; `fuel` bounds the scan and
always suffices at reachable call sites (the `n`-th prime is below `2^n + 2`). -/
def getPrimesAux (fuel : Nat) (candidate : Int) (acc : List Int) (n : Nat) : List Int :=
  match fuel with
  | 0 => acc.reverse
  | f + 1 =>
    if n ≤ acc.length then acc.reverse
    else if isPrimeTrial candidate then getPrimesAux f (candidate + 1) (candidate :: acc) n
    else getPrimesAux f (candidate + 1) acc n

/-- `get_primes(n)`: the first `n` primes by trial division. -/
def getPrimes (n : Nat) : List Int := getPrimesAux (2 ^ n + 2) 2 [] n

/-- `find_primes_sequence(numbers)`: the list must equal the first
`len(numbers)` primes. -/
def find_primes_sequence (numbers : List Int) : Option Nat :=
  let n := numbers.length
  if getPrimes n = numbers then some n else none

/-! ## L-system detection -/

/-- An entry of `KNOWN_LSYSTEMS`: axiom and production rules (the Python dict
keys are single characters; insertion order is preserved). -/
structure LSys where
  axiomStr : String
  rules : List (Char × String)
deriving DecidableEq, Repr

/-- `rules.get(char, char)`: the production for `char`, defaulting to the
character itself. -/
def rulesGet (rules : List (Char × String)) (c : Char) : String :=
  match rules.find? (fun p => p.1 = c) with
  | some p => p.2
  | none => String.mk [c]

/-- One rewriting pass of `generate_lsystem`'s inner loop. -/
def lsysStep (rules : List (Char × String)) (s : String) : String :=
  String.mk ((s.data.map (fun c => (rulesGet rules c).data)).flatten)

/-- `generate_lsystem(axiom, rules, iterations)`. -/
def generate_lsystem (ax : String) (rules : List (Char × String)) : Nat → String
  | 0 => ax
  | k + 1 => lsysStep rules (generate_lsystem ax rules k)

/-- `KNOWN_LSYSTEMS` in dict insertion order: koch, sierpinski, dragon, hilbert. -/
def KNOWN_LSYSTEMS : List LSys :=
  [ ⟨"F", [('F', "F+F-F-F+F")]⟩,
    ⟨"F-G-G", [('F', "F-G+F+G-F"), ('G', "GG")]⟩,
    ⟨"FX", [('X', "X+YF+"), ('Y', "-FX-Y")]⟩,
    ⟨"A", [('A', "-BF+AFA+FB-"), ('B', "+AF-BFB-FA+")]⟩ ]

/-- The inner loop of `find_lsystem` for one catalog entry: iterations
`k, k+1, ...` while fuel lasts (the loop is `range(1, 15)`), with the early
`break` once the generated string is longer than twice the target. -/
def flsInner (ls : LSys) (text : String) : Nat → Nat → Option (String × List (Char × String) × Nat)
  | _, 0 => none
  | k, f + 1 =>
    let generated := generate_lsystem ls.axiomStr ls.rules k
    if generated = text then some (ls.axiomStr, ls.rules, k)
    else if text.length * 2 < generated.length then none
    else flsInner ls text (k + 1) f

/-- The outer loop of `find_lsystem` over the catalog entries. -/
def flsOuter (entries : List LSys) (text : String) : Option (String × List (Char × String) × Nat) :=
  match entries with
  | [] => none
  | ls :: rest =>
    match flsInner ls text 1 14 with
    | some r => some r
    | none => flsOuter rest text

/-- `find_lsystem(text)`: search the fixed catalog, iterations `1..14` each,
stopping early per entry once the generated string exceeds twice the target
length. -/
def find_lsystem (text : String) : Option (String × List (Char × String) × Nat) :=
  flsOuter KNOWN_LSYSTEMS text

/-! ## The `CompressedData` container -/

/-- `CompressionType` enum of the source (values 1..6). -/
inductive CompressionType
  | PATTERN_REPEAT
  | SEQUENCE
  | LSYSTEM
  | FRACTAL_IFS
  | DICTIONARY
  | HYBRID
deriving DecidableEq, Repr

/-- The integer `.value` of each enum member. -/
def CompressionType.value : CompressionType → Nat
  | .PATTERN_REPEAT => 1
  | .SEQUENCE => 2
  | .LSYSTEM => 3
  | .FRACTAL_IFS => 4
  | .DICTIONARY => 5
  | .HYBRID => 6

/-- `CompressionType(v)`: lookup by value, `ValueError` (here `none`) if absent. -/
def CompressionType.ofValue : Int → Option CompressionType
  | 1 => some .PATTERN_REPEAT
  | 2 => some .SEQUENCE
  | 3 => some .LSYSTEM
  | 4 => some .FRACTAL_IFS
  | 5 => some .DICTIONARY
  | 6 => some .HYBRID
  | _ => none

/-- The `seed` dicts built by `_try_sequence_compression` (`'type'` key plus
the per-family parameters, in dict insertion order). Counts are `Int` because
a parsed container may carry any JSON integer. The geometric `ratio` is a
Python float, modelled as an exact rational. -/
inductive SeqSeed
  | arithmetic (start step count : Int)
  | geometric (start : Int) (rq : ℚ) (count : Int)
  | fibonacci (a b count : Int)
  | powers (base count : Int)
  | primes (count : Int)
deriving DecidableEq, Repr

/-- The dynamic type of `CompressedData.seed` (`Any` in the source): the code
stores `bytes` (repeated pattern, raw fallback), `str` (L-system axiom,
hex-encoded zlib payload) or a sequence dict. -/
inductive Seed
  | bytes (b : Bytes)
  | str (s : String)
  | seq (q : SeqSeed)
deriving DecidableEq, Repr

/-- Whether `isinstance(self.seed, bytes)` holds. -/
def Seed.isBytes : Seed → Bool
  | .bytes _ => true
  | _ => false

/-- The `generator_params` dicts the code builds: `{'count': n}` for pattern
containers, `{'rules': ..., 'iterations': n}` for L-system containers, and
`{}` for sequence/dictionary containers. -/
inductive GenParams
  | count (n : Int)
  | lsys (rules : List (Char × String)) (iterations : Int)
  | empty
deriving DecidableEq, Repr

/-- The dataclass `CompressedData`. `original_size` is always `len(data)` of
some blob, hence a `Nat`. -/
structure CompressedData where
  compression_type : CompressionType
  seed : Seed
  generator_params : GenParams
  original_size : Nat
  original_hash : String
deriving DecidableEq, Repr

/-! ### `json.dumps` of the payload dict (default separators, `ensure_ascii`) -/

/-- Four hex digits (for `\uXXXX` escapes). -/
def hex4 (n : Nat) : List Char :=
  [hexDigit (n / 4096 % 16), hexDigit (n / 256 % 16), hexDigit (n / 16 % 16), hexDigit (n % 16)]

/-- `json.dumps` escaping of one character with `ensure_ascii=True` (the
default): short escapes for the usual control characters, `\u00XX` for other
controls, the character itself for printable ASCII, and `\uXXXX` (surrogate
pairs above U+FFFF) for everything else. -/
def jsonEscapeChar (c : Char) : List Char :=
  let n := c.toNat
  if c = '"' then ['\\', '"']
  else if c = '\\' then ['\\', '\\']
  else if n = 8 then ['\\', 'b']
  else if n = 9 then ['\\', 't']
  else if n = 10 then ['\\', 'n']
  else if n = 12 then ['\\', 'f']
  else if n = 13 then ['\\', 'r']
  else if n < 32 then '\\' :: 'u' :: hex4 n
  else if n < 127 then [c]
  else if n < 65536 then '\\' :: 'u' :: hex4 n
  else ('\\' :: 'u' :: hex4 (55296 + (n - 65536) / 1024)) ++ ('\\' :: 'u' :: hex4 (56320 + (n - 65536) % 1024))

/-- A JSON string literal for `s`. -/
def jsonStr (s : String) : List Char :=
  '"' :: (s.data.map jsonEscapeChar).flatten ++ ['"']

/-- `json.dumps` rendering of a Python int. -/
def jsonInt (i : Int) : List Char := intDec i

/-- `repr` of the float stored in a geometric seed. Only exact integral floats
(the only kind any theorem below touches) are rendered faithfully
(`2.0` style); for other rationals this is a placeholder decimal — Python's
shortest-roundtrip float repr has no exact rational counterpart, and every
theorem below either avoids geometric seeds or excludes them by hypothesis. -/
def ratRepr (q : ℚ) : List Char :=
  if q.den = 1 then intDec q.num ++ ['.', '0']
  else intDec q.num ++ ['/' ] ++ natDec q.den

/-- JSON rendering of a sequence-seed dict, in insertion order. -/
def seqSeedJson : SeqSeed → List Char
  | .arithmetic start step count =>
    "\x7b\"type\": \"arithmetic\", \"start\": ".data ++ jsonInt start
      ++ ", \"step\": ".data ++ jsonInt step
      ++ ", \"count\": ".data ++ jsonInt count ++ "\x7d".data
  | .geometric start rq count =>
    "\x7b\"type\": \"geometric\", \"start\": ".data ++ jsonInt start
      ++ ", \"ratio\": ".data ++ ratRepr rq
      ++ ", \"count\": ".data ++ jsonInt count ++ "\x7d".data
  | .fibonacci a b count =>
    "\x7b\"type\": \"fibonacci\", \"a\": ".data ++ jsonInt a
      ++ ", \"b\": ".data ++ jsonInt b
      ++ ", \"count\": ".data ++ jsonInt count ++ "\x7d".data
  | .powers base count =>
    "\x7b\"type\": \"powers\", \"base\": ".data ++ jsonInt base
      ++ ", \"count\": ".data ++ jsonInt count ++ "\x7d".data
  | .primes count =>
    "\x7b\"type\": \"primes\", \"count\": ".data ++ jsonInt count ++ "\x7d".data

/-- JSON rendering of the serialized `seed` field: a bytes seed is stored as
`self.seed.hex()`, the others as themselves. -/
def seedJson : Seed → List Char
  | .bytes b => jsonStr (String.mk (hexEncode b))
  | .str s => jsonStr s
  | .seq q => seqSeedJson q

/-- `", "`-joined concatenation, as `json.dumps` separates dict entries. -/
def joinComma : List (List Char) → List Char
  | [] => []
  | [x] => x
  | x :: y :: rest => x ++ ", ".data ++ joinComma (y :: rest)

/-- JSON rendering of one rules entry. -/
def ruleEntryJson (p : Char × String) : List Char :=
  jsonStr (String.mk [p.1]) ++ ": ".data ++ jsonStr p.2

/-- JSON rendering of a rules dict (`{'F': 'F+F-F-F+F', ...}`). -/
def rulesJson (rules : List (Char × String)) : List Char :=
  "\x7b".data ++ joinComma (rules.map ruleEntryJson) ++ "\x7d".data

/-- JSON rendering of `generator_params`. -/
def paramsJson : GenParams → List Char
  | .count n => "\x7b\"count\": ".data ++ jsonInt n ++ "\x7d".data
  | .lsys rules iterations =>
    "\x7b\"rules\": ".data ++ rulesJson rules
      ++ ", \"iterations\": ".data ++ jsonInt iterations ++ "\x7d".data
  | .empty => "\x7b\x7d".data

/-- The full `json.dumps` payload of `CompressedData.to_bytes`, with the keys
in the order the source dict literal lists them. -/
def payloadChars (c : CompressedData) : List Char :=
  "\x7b\"type\": ".data ++ natDec c.compression_type.value
    ++ ", \"seed\": ".data ++ seedJson c.seed
    ++ ", \"seed_is_bytes\": ".data ++ (if c.seed.isBytes then "true".data else "false".data)
    ++ ", \"params\": ".data ++ paramsJson c.generator_params
    ++ ", \"orig_size\": ".data ++ natDec c.original_size
    ++ ", \"hash\": ".data ++ jsonStr c.original_hash
    ++ "\x7d".data

/-- `MAGIC = b'SEMC'`. -/
def MAGIC_BYTES : Bytes := [83, 69, 77, 67]

/-- `VERSION = 1`. -/
def VERSION_NUM : Nat := 1

/-- `CompressedData.to_bytes`: `MAGIC + struct.pack('<BI', VERSION, len(payload))
+ payload`. -/
def to_bytes (c : CompressedData) : Bytes :=
  let payload := utf8EncodeL (payloadChars c)
  MAGIC_BYTES ++ [VERSION_NUM] ++ u32le payload.length ++ payload

/-- `CompressedData.compressed_size`. -/
def compressed_size (c : CompressedData) : Nat := (to_bytes c).length

/-- `CompressedData.ratio`, as an exact rational. The Python `else` branch
returns `inf` when the size is zero; the size is always at least 9 (header),
so that branch is unreachable (Lean's `x / 0 = 0` stands in for it). -/
def ratioQ (c : CompressedData) : ℚ :=
  (c.original_size : ℚ) / (compressed_size c : ℚ)

/-! ## The `SemanticCompressor` -/

/-- Adler-32 checksum (the trailer of every zlib stream). -/
def adler32 (data : Bytes) : Bytes :=
  let p := data.foldl (fun (ab : Nat × Nat) byte =>
    let a := (ab.1 + byte) % 65521
    (a, (ab.2 + a) % 65521)) (1, 0)
  [p.2 / 256, p.2 % 256, p.1 / 256, p.1 % 256]

/-- Modelled from the spec: `zlib.compress(data, level=9)` is external library
code, not under `src/`; the spec describes the dictionary strategy only as "a
generic entropy coder (conceptually deflate-style); accepted only if its
output is strictly smaller than the input". It is modelled as a zlib stream
carrying the data verbatim (2-byte zlib header, body, 4-byte Adler-32
trailer). Every real zlib stream has the same ≥ 6 bytes of framing overhead,
and that overhead is the only property of the coder any theorem below relies
on: each concrete input below either skips the dictionary strategy entirely
(best ratio ≥ 1.5) or is a 4–17 byte blob that real deflate also cannot
shrink below its input size. -/
def zlib_compress (data : Bytes) : Bytes :=
  [120, 218] ++ data ++ adler32 data

/-- Modelled from the spec: `zlib.decompress`, the inverse of the modelled
`zlib.compress`; malformed streams raise (`zlib.error`). -/
def zlib_decompress (data : Bytes) : Except String Bytes :=
  if data.take 2 = [120, 218] ∧ 6 ≤ data.length then
    let body := (data.drop 2).take (data.length - 6)
    if data.drop (data.length - 4) = adler32 body then .ok body
    else .error "zlib.error"
  else .error "zlib.error"

/-- Python `str.split(',')` on a character list: every comma separates, empty
chunks are kept. -/
def splitOnComma : List Char → List (List Char)
  | [] => [[]]
  | c :: rest =>
    if c = ',' then [] :: splitOnComma rest
    else
      match splitOnComma rest with
      | [] => [[c]]
      | g :: gs => (c :: g) :: gs

/-- The ASCII whitespace stripped by `str.strip()` (Python also strips other
unicode whitespace; no claim involves any). -/
def isPyWs (c : Char) : Bool :=
  c = ' ' ∨ c = '\t' ∨ c = '\n' ∨ c = '\r' ∨ c.toNat = 11 ∨ c.toNat = 12

/-- `s.strip()`. -/
def pyStrip (s : List Char) : List Char :=
  ((s.dropWhile isPyWs).reverse.dropWhile isPyWs).reverse

/-- Whether `ds` is a non-empty run of ASCII decimal digits. -/
def allDigits (ds : List Char) : Bool :=
  ds ≠ [] ∧ ds.all (fun c => 48 ≤ c.toNat ∧ c.toNat ≤ 57)

/-- Numeric value of a digit run. -/
def digitsVal (ds : List Char) : Nat :=
  ds.foldl (fun acc c => acc * 10 + (c.toNat - 48)) 0

/-- `int(x.strip())`: optional single sign then decimal digits (leading zeros
accepted). Python's `int` additionally accepts underscores between digits and
non-ASCII decimal digits; no claim depends on either, so they are not
modelled. `none` is a raised `ValueError`. -/
def pyInt (s : List Char) : Option Int :=
  match pyStrip s with
  | [] => none
  | c :: ds =>
    if c = '-' then (if allDigits ds then some (-(digitsVal ds : Int)) else none)
    else if c = '+' then (if allDigits ds then some ((digitsVal ds : Int)) else none)
    else if allDigits (c :: ds) then some ((digitsVal (c :: ds) : Int)) else none

/-- `SemanticCompressor._parse_numbers`: decode UTF-8, split on `','`, parse
each piece with `int(piece.strip())`; any failure yields `None`. -/
def parse_numbers (data : Bytes) : Option (List Int) := do
  let chars ← utf8DecodeL data
  (splitOnComma chars).mapM pyInt

/-- `SemanticCompressor._try_pattern_compression` (it recomputes the digest of
`data` itself). -/
def tryPattern (hash : Bytes → String) (data : Bytes) : Option CompressedData :=
  match find_repeating_pattern data with
  | none => none
  | some (pattern, count) =>
    some ⟨.PATTERN_REPEAT, .bytes pattern, .count (count : Int), data.length, hash data⟩

/-- `SemanticCompressor._try_lsystem_compression`. -/
def tryLsystem (text : String) (osize : Nat) (ohash : String) : Option CompressedData :=
  match find_lsystem text with
  | none => none
  | some (ax, rules, iterations) =>
    some ⟨.LSYSTEM, .str ax, .lsys rules (iterations : Int), osize, ohash⟩

/-- `SemanticCompressor._try_sequence_compression`: the detectors are tried in
source order; the first hit is wrapped in a `SEQUENCE` container. -/
def trySequence (numbers : List Int) (osize : Nat) (ohash : String) : Option CompressedData :=
  match find_arithmetic_sequence numbers with
  | some (start, step, count) =>
    some ⟨.SEQUENCE, .seq (.arithmetic start step (count : Int)), .empty, osize, ohash⟩
  | none =>
  match find_geometric_sequence numbers with
  | some (start, rq, count) =>
    some ⟨.SEQUENCE, .seq (.geometric start rq (count : Int)), .empty, osize, ohash⟩
  | none =>
  match find_fibonacci_like numbers with
  | some (a, b, count) =>
    some ⟨.SEQUENCE, .seq (.fibonacci a b (count : Int)), .empty, osize, ohash⟩
  | none =>
  match find_powers numbers with
  | some (base, count) =>
    some ⟨.SEQUENCE, .seq (.powers base (count : Int)), .empty, osize, ohash⟩
  | none =>
  match find_primes_sequence numbers with
  | some count => some ⟨.SEQUENCE, .seq (.primes (count : Int)), .empty, osize, ohash⟩
  | none => none

/-- `SemanticCompressor._try_dictionary_compression`: rejected unless the zlib
output is strictly smaller than the input; the seed is the hex string of the
zlib stream. -/
def tryDictionary (data : Bytes) (osize : Nat) (ohash : String) : Option CompressedData :=
  let comp := zlib_compress data
  if osize ≤ comp.length then none
  else some ⟨.DICTIONARY, .str (String.mk (hexEncode comp)), .empty, osize, ohash⟩

/-- `SemanticCompressor.compress`: strategies in source order, keeping the
best ratio seen (gate `> 1.0` for the first hit, then strict improvement);
the dictionary fallback only runs when nothing is kept or the best ratio is
below 1.5; the raw container (`PATTERN_REPEAT`, seed = the data, count 1) is
the last resort. The `try/except` around strategies 2 and 3 only absorbs
decode/parse failures, which the `Option` results model. -/
def compress (hash : Bytes → String) (data : Bytes) : CompressedData :=
  let ohash := hash data
  let osize := data.length
  let b1 : Option CompressedData × ℚ :=
    match tryPattern hash data with
    | some r => if 1 < ratioQ r then (some r, ratioQ r) else (none, 1)
    | none => (none, 1)
  let b2 : Option CompressedData × ℚ :=
    match utf8DecodeL data with
    | some chars =>
      match tryLsystem (String.mk chars) osize ohash with
      | some r => if b1.2 < ratioQ r then (some r, ratioQ r) else b1
      | none => b1
    | none => b1
  let b3 : Option CompressedData × ℚ :=
    match parse_numbers data with
    | some numbers =>
      if numbers ≠ [] then
        match trySequence numbers osize ohash with
        | some r => if b2.2 < ratioQ r then (some r, ratioQ r) else b2
        | none => b2
      else b2
    | none => b2
  let b4 : Option CompressedData × ℚ :=
    if b3.1 = none ∨ b3.2 < 3 / 2 then
      match tryDictionary data osize ohash with
      | some d => if b3.1 = none ∨ b3.2 < ratioQ d then (some d, b3.2) else b3
      | none => b3
    else b3
  match b4.1 with
  | some r => r
  | none => ⟨.PATTERN_REPEAT, .bytes data, .count 1, osize, ohash⟩

/-- `[a, b]` followed by `count - 2` Fibonacci appends, exactly as
`_decompress_sequence` builds it (`count ≤ 2` still yields both seeds, since
`range(count - 2)` is then empty). -/
def fibRegen (a b : Int) (count : Int) : List Int :=
  fibForward a b ((count - 2).toNat + 2)

/-- The prime regeneration `while` loop of `_decompress_sequence`: candidates
are kept when no previously kept value divides them. -/
def primesRegenAux (fuel : Nat) (candidate : Int) (acc : List Int) (count : Int) : List Int :=
  match fuel with
  | 0 => acc.reverse
  | f + 1 =>
    if (count : Int) ≤ acc.length then acc.reverse
    else if acc.all (fun p => candidate % p ≠ 0) then
      primesRegenAux f (candidate + 1) (candidate :: acc) count
    else primesRegenAux f (candidate + 1) acc count

/-- The integer list regenerated from a sequence seed. -/
def seqNumbers : SeqSeed → List Int
  | .arithmetic start step count => (List.range count.toNat).map (fun (i : Nat) => start + (i : Int) * step)
  | .geometric start rq count => (List.range count.toNat).map (fun i => ratTrunc ((start : ℚ) * rq ^ i))
  | .fibonacci a b count => fibRegen a b count
  | .powers base count => (List.range count.toNat).map (fun i => base ^ i)
  | .primes count => primesRegenAux (2 ^ count.toNat + 2) 2 [] count

/-- `SemanticCompressor._decompress_sequence`: regenerate the numbers and
re-encode them joined by `','` (no spaces). A non-dict seed raises
(`TypeError`). -/
def decompressSequence (c : CompressedData) : Except String Bytes :=
  match c.seed with
  | .seq q => .ok (utf8EncodeL (List.intercalate [','] ((seqNumbers q).map intDec)))
  | _ => .error "TypeError: seed is not a dict"

/-- The regeneration dispatch of `SemanticCompressor.decompress` (everything
before the digest check): pattern repetition, sequence, L-system or zlib,
with the source's failure modes as errors. -/
def regenerate (c : CompressedData) : Except String Bytes :=
  match c.compression_type with
  | .PATTERN_REPEAT =>
    match c.generator_params with
    | .count n =>
      match c.seed with
      | .bytes p => .ok (repeatList p n.toNat)
      | .str s => .ok (repeatList (utf8EncodeL s.data) n.toNat)
      | .seq _ => .error "TypeError: cannot repeat a dict"
    | _ => .error "KeyError: count"
  | .SEQUENCE => decompressSequence c
  | .LSYSTEM =>
    match c.generator_params with
    | .lsys rules iterations =>
      match c.seed with
      | .str ax => .ok (utf8EncodeL (generate_lsystem ax rules iterations.toNat).data)
      | _ => .error "TypeError: axiom is not a str"
    | _ => .error "KeyError: rules"
  | .DICTIONARY =>
    match c.seed with
    | .str s =>
      match hexDecode s.data with
      | some payload => zlib_decompress payload
      | none => .error "ValueError: non-hexadecimal number"
    | _ => .error "TypeError: fromhex argument must be str"
  | _ => .error "Unknown compression type"

/-- `SemanticCompressor.decompress`: regenerate, then compare the digest of
the result with the stored digest; mismatch raises. -/
def decompress (hash : Bytes → String) (c : CompressedData) : Except String Bytes :=
  match regenerate c with
  | .error e => .error e
  | .ok result =>
    if hash result = c.original_hash then .ok result
    else .error "Hash mismatch! Decompression failed."

/-! ## Concrete instantiations

Batteries marks the `Rat` arithmetic operations `@[irreducible]`; the model's
ratio comparisons must evaluate on concrete containers, so restore default
unfolding for them (file-local; the kernel is unaffected). -/

attribute [local semireducible] Rat.mul Rat.inv Rat.add Rat.sub

/-- UTF-8 bytes of a string literal. -/
def strBytes (s : String) : Bytes := utf8EncodeL s.data

/-- A constant stand-in for `hashlib.sha256(data).hexdigest()[:32]`, keeping
the two properties of the real digest that sizes and ratios depend on: the
output always has exactly 32 plain hex characters. Used where the statement
does not depend on distinguishing digests. -/
def hashHex : Bytes → String := fun _ => "00112233445566778899aabbccddeeff"

/-- The 381-byte blob `b"0, 7, 14, ..., 553"`: the arithmetic progression
`7*i` for `i < 80` rendered with `", "` (comma-space) separators — a valid
comma-separated integer list for `_parse_numbers`, whose `int(x.strip())`
drops the spaces. -/
def inputSpaced : Bytes :=
  strBytes (String.intercalate ", " ((List.range 80).map (fun i => toString (7 * i))))

/-- Stand-in for the truncated sha256 digest on the `inputSpaced` scenario: it
distinguishes `inputSpaced` from every other blob (as the real digest does,
barring a SHA-256 collision) and always returns 32 plain hex characters. -/
def hashSpaced : Bytes → String := fun b =>
  if b = inputSpaced then "00000000000000000000000000000000"
  else "11111111111111111111111111111111"

/-- What the arithmetic regenerator emits for the `inputSpaced` container:
the same 80 integers joined by `","` with no spaces (302 bytes). -/
def spacedRegen : Bytes :=
  strBytes (String.intercalate "," ((List.range 80).map (fun i => toString (7 * i))))

/-- `b"1,1,2,3,5,8,13,21"` — the spec's Fibonacci scenario (17 bytes). -/
def fibInput : Bytes := strBytes "1,1,2,3,5,8,13,21"

/-- `b"abab"`. -/
def ababInput : Bytes := strBytes "abab"

set_option maxRecDepth 10000

/-- **C1.** The claim states `decompress(compress(B)) == B` for every byte
blob, with no exception raised. The code violates it: on the 381-byte blob
`b"0, 7, 14, ..., 553"` (an arithmetic progression written with comma-space
separators), `compress` selects an ArithmeticSequence container without any
self-verification, `_decompress_sequence` regenerates the list joined by bare
`","` — different bytes — and `decompress` raises
`ValueError("Hash mismatch! Decompression failed.")` instead of returning `B`. -/
theorem C1_roundtrip_raises_on_spaced_numbers :
    decompress hashSpaced (compress hashSpaced inputSpaced) =
      Except.error "Hash mismatch! Decompression failed." := by rfl

/-- **C2.** The claim states that every container returned by `compress`
regenerates byte-for-byte to the input, enforced by a regenerate-and-compare
check before returning. `compress` contains no such check: on
`b"0, 7, 14, ..., 553"` it returns the arithmetic container `(start 0, step 7,
count 80)` whose regeneration is the 302-byte `b"0,7,14,...,553"`, not the
381-byte input. -/
theorem C2_compress_emits_unverified_container :
    compress hashSpaced inputSpaced =
      ⟨.SEQUENCE, .seq (.arithmetic 0 7 80), .empty, 381,
        "00000000000000000000000000000000"⟩ ∧
    regenerate (compress hashSpaced inputSpaced) = Except.ok spacedRegen ∧
    spacedRegen ≠ inputSpaced :=
  ⟨by decide, by rfl, by decide⟩

/-- **C3 counterexample.** The claim states `compress` returns the candidate
with minimal serialized container size (maximal ratio) among all successful
recognitions. On `b"abab"`, `find_repeating_pattern` succeeds (`b"ab" × 2`,
serialized size 143), but its ratio 4/143 fails the `> 1.0` gate, the zlib
fallback cannot shrink 4 bytes, and `compress` returns the *raw* container
(seed = the whole blob, size 147) — 4 bytes larger than the successful
pattern candidate. -/
theorem C3_cex_abab_not_minimal :
    (tryPattern hashHex ababInput).map compressed_size = some 143 ∧
    compressed_size (compress hashHex ababInput) = 147 ∧
    (compress hashHex ababInput).seed = Seed.bytes ababInput :=
  ⟨by decide, by decide, by decide⟩

/-- **C4 counterexample.** The claim states compressing
`b"1,1,2,3,5,8,13,21"` returns a Fibonacci-sequence container with
`a=1, b=1, count=8`. Detection does find `(1, 1, 8)`, but the serialized
sequence container (178 bytes) is an order of magnitude larger than the
17-byte input, so its ratio fails the `> 1.0` gate and `compress` returns the
raw fallback container instead. -/
theorem C4_cex_fib_gets_raw_container :
    find_fibonacci_like [1, 1, 2, 3, 5, 8, 13, 21] = some (1, 1, 8) ∧
    (trySequence [1, 1, 2, 3, 5, 8, 13, 21] 17 (hashHex fibInput)).map compressed_size =
      some 178 ∧
    (compress hashHex fibInput).compression_type = CompressionType.PATTERN_REPEAT ∧
    (compress hashHex fibInput).seed = Seed.bytes fibInput :=
  ⟨by decide, by decide, by decide, by decide⟩

/-- **C4 amended.** `find_fibonacci_like` does detect `a=1, b=1, count=8` on
the parsed list, but the container `compress` returns for
`b"1,1,2,3,5,8,13,21"` is the raw fallback (`PATTERN_REPEAT`, seed = the
input, count 1) because the sequence container would be larger than the
input; decompressing it still returns exactly the original bytes. -/
theorem C4_amended_raw_roundtrip :
    compress hashHex fibInput =
      ⟨.PATTERN_REPEAT, .bytes fibInput, .count 1, 17,
        "00112233445566778899aabbccddeeff"⟩ ∧
    decompress hashHex (compress hashHex fibInput) = Except.ok fibInput :=
  ⟨by decide, by rfl⟩

/-! ## C5: exactness of arithmetic-sequence detection -/

/-- **C5.** `find_arithmetic_sequence` accepts only lists whose every term is
exactly `start + i*step` for the start and step read off the first two terms
(and then reports `count = len`); the deviating list `[0, 7, 15, 21]` is
rejected. -/
theorem C5_arithmetic_exactness :
    (∀ (ns : List Int) (s st : Int) (c : Nat),
        find_arithmetic_sequence ns = some (s, st, c) →
          2 ≤ ns.length ∧ c = ns.length ∧
          ∀ i, i < ns.length → ns[i]? = some (s + i * st)) ∧
    find_arithmetic_sequence [0, 7, 15, 21] = none := by
  refine ⟨?_, by decide⟩
  intro ns s st c h
  match ns, h with
  | a :: b :: tl, h =>
    rw [find_arithmetic_sequence] at h
    by_cases hc :
        (List.range (a :: b :: tl).length).map (fun (i : Nat) => a + (i : Int) * (b - a)) = a :: b :: tl
    · rw [if_pos hc] at h
      obtain ⟨hs, hst, hcnt⟩ : s = a ∧ st = b - a ∧ c = (a :: b :: tl).length := by
        have := Option.some.inj h
        exact ⟨congrArg Prod.fst this.symm, congrArg (fun p => p.2.1) this.symm,
          congrArg (fun p => p.2.2) this.symm⟩
      subst hs hst hcnt
      refine ⟨by simp, rfl, ?_⟩
      intro i hi
      conv_lhs => rw [← hc]
      rw [List.getElem?_map]
      rw [List.getElem?_range (by simpa using hi)]
      rfl
    · rw [if_neg hc] at h
      exact absurd h (by simp)

/-- Closed instance of `C5_arithmetic_exactness` at `[3, 5, 7]`. -/
theorem C5_witness :
    find_arithmetic_sequence [3, 5, 7] = some (3, 2, 3) ∧
    (2 ≤ ([3, 5, 7] : List Int).length ∧ 3 = ([3, 5, 7] : List Int).length ∧
      ∀ i, i < ([3, 5, 7] : List Int).length → ([3, 5, 7] : List Int)[i]? = some (3 + i * 2)) :=
  ⟨by decide, C5_arithmetic_exactness.1 [3, 5, 7] 3 2 3 (by decide)⟩

/-! ## C6: decompression integrity check -/

/-- **C6.** `decompress` regenerates from kind and seed, digests the result
and compares with the stored digest: it returns bytes exactly when the
regeneration succeeds and the digests agree, and raises the integrity error
(returning nothing) on a digest mismatch — never partial data. -/
theorem C6_decompress_integrity (hash : Bytes → String) (c : CompressedData) :
    (∀ r, decompress hash c = Except.ok r ↔
        (regenerate c = Except.ok r ∧ hash r = c.original_hash)) ∧
    (∀ r, regenerate c = Except.ok r → hash r ≠ c.original_hash →
        decompress hash c = Except.error "Hash mismatch! Decompression failed.") := by
  constructor
  · intro r
    rw [decompress]
    cases hreg : regenerate c with
    | error e => simp
    | ok res =>
      dsimp only
      by_cases hh : hash res = c.original_hash
      · rw [if_pos hh]
        constructor
        · intro hok
          have hrr : res = r := Except.ok.inj hok
          subst hrr
          exact ⟨rfl, hh⟩
        · intro ⟨h1, _⟩
          have : res = r := Except.ok.inj h1
          subst this
          rfl
      · rw [if_neg hh]
        constructor
        · intro hk
          exact absurd hk (by simp)

        · intro ⟨h1, h2⟩
          have : res = r := Except.ok.inj h1
          subst this
          exact absurd h2 hh
  · intro r hreg hne
    rw [decompress, hreg]
    dsimp only
    rw [if_neg hne]

/-- Closed instance of `C6_decompress_integrity`: a pattern container whose
regeneration digest matches is decompressed to the regenerated bytes. -/
theorem C6_witness :
    decompress hashHex
      ⟨.PATTERN_REPEAT, .bytes [65], .count 2, 2, "00112233445566778899aabbccddeeff"⟩ =
      Except.ok [65, 65] :=
  ((C6_decompress_integrity hashHex
      ⟨.PATTERN_REPEAT, .bytes [65], .count 2, 2, "00112233445566778899aabbccddeeff"⟩).1
    [65, 65]).mpr ⟨by rfl, by rfl⟩

/-! ## C10: shortest tiling pattern -/

lemma repeatList_length (p : Bytes) : ∀ k, (repeatList p k).length = k * p.length := by
  intro k
  induction k with
  | zero => simp [repeatList]
  | succ m ih => simp [repeatList, ih, Nat.succ_mul, Nat.add_comm]

/-- Loop invariant of the upward scan: a hit is the least qualifying length at
or after the starting point. -/
lemma frpFrom_sound (data : Bytes) (n : Nat) :
    ∀ (f L : Nat) (p : Bytes) (c : Nat), frpFrom data n L f = some (p, c) →
      ∃ Lw, L ≤ Lw ∧ Lw < L + f ∧
        n % Lw = 0 ∧ repeatList (data.take Lw) (n / Lw) = data ∧
        p = data.take Lw ∧ c = n / Lw ∧
        ∀ M, L ≤ M → M < Lw → ¬(n % M = 0 ∧ repeatList (data.take M) (n / M) = data) := by
  intro f
  induction f with
  | zero =>
    intro L p c h
    exact absurd h (by simp [frpFrom])
  | succ m ih =>
    intro L p c h
    rw [frpFrom] at h
    by_cases hcond : n % L = 0 ∧ repeatList (data.take L) (n / L) = data
    · rw [if_pos hcond] at h
      have hpair := Option.some.inj h
      refine ⟨L, le_refl L, by omega, hcond.1, hcond.2,
        (congrArg Prod.fst hpair).symm, (congrArg Prod.snd hpair).symm, ?_⟩
      intro M hM1 hM2
      exact absurd (lt_of_le_of_lt hM1 hM2) (lt_irrefl L)
    · rw [if_neg hcond] at h
      obtain ⟨Lw, hL1, hL2, ht1, ht2, hp, hc2, hmin⟩ := ih (L + 1) p c h
      refine ⟨Lw, by omega, by omega, ht1, ht2, hp, hc2, ?_⟩
      intro M hM1 hM2
      by_cases hML : M = L
      · subst hML; exact hcond
      · exact hmin M (by omega) hM2

/-- **C10.** When an input is tiled by several patterns,
`find_repeating_pattern` reports the shortest: the reported length is the
least `L` in `1..n/2` whose prefix, repeated `n/L` times, rebuilds the input;
and the pattern container built from it stores that pattern as its seed. -/
theorem C10_shortest_pattern :
    (∀ (data p : Bytes) (c : Nat), find_repeating_pattern data = some (p, c) →
      ∃ L, 1 ≤ L ∧ L ≤ data.length / 2 ∧ p = data.take L ∧ c = data.length / L ∧
        repeatList (data.take L) (data.length / L) = data ∧
        ∀ M, 1 ≤ M → M < L → repeatList (data.take M) (data.length / M) ≠ data) ∧
    (∀ (hash : Bytes → String) (data : Bytes) (cd : CompressedData),
      tryPattern hash data = some cd →
      ∃ p c, find_repeating_pattern data = some (p, c) ∧ cd.seed = Seed.bytes p) := by
  constructor
  · intro data p c h
    rw [find_repeating_pattern] at h
    by_cases hn : data.length = 0
    · rw [if_pos hn] at h
      exact absurd h (by simp)
    · rw [if_neg hn] at h
      obtain ⟨Lw, hL1, hL2, ht1, ht2, hp, hc2, hmin⟩ :=
        frpFrom_sound data data.length (data.length / 2) 1 p c h
      refine ⟨Lw, hL1, by omega, hp, hc2, ht2, ?_⟩
      intro M hM1 hM2 heq
      by_cases hmod : data.length % M = 0
      · exact hmin M hM1 hM2 ⟨hmod, heq⟩
      · have hlen := congrArg List.length heq
        rw [repeatList_length, List.length_take] at hlen
        have hMle : M ≤ data.length := by omega
        rw [Nat.min_eq_left hMle] at hlen
        have hdm := Nat.div_add_mod data.length M
        rw [Nat.mul_comm] at hdm
        omega
  · intro hash data cd h
    rw [tryPattern] at h
    cases hfind : find_repeating_pattern data with
    | none => rw [hfind] at h; exact absurd h (by simp)
    | some pc =>
      rw [hfind] at h
      refine ⟨pc.1, pc.2, rfl, ?_⟩
      have := Option.some.inj h
      rw [← this]

/-- Closed instance of `C10_shortest_pattern` at `b"abab"`: the reported
pattern is the 2-byte `b"ab"`, the shortest tiling prefix. -/
theorem C10_witness :
    find_repeating_pattern ababInput = some ([97, 98], 2) ∧
    ∃ L, 1 ≤ L ∧ L ≤ ababInput.length / 2 ∧ ([97, 98] : Bytes) = ababInput.take L ∧
      2 = ababInput.length / L ∧
      repeatList (ababInput.take L) (ababInput.length / L) = ababInput ∧
      ∀ M, 1 ≤ M → M < L → repeatList (ababInput.take M) (ababInput.length / M) ≠ ababInput :=
  ⟨by decide, C10_shortest_pattern.1 ababInput [97, 98] 2 (by decide)⟩

/-! ## C9: bounded L-system search -/

lemma flsInner_sound (ls : LSys) (t : String) :
    ∀ (f k : Nat) (a : String) (r : List (Char × String)) (m : Nat),
      flsInner ls t k f = some (a, r, m) →
      a = ls.axiomStr ∧ r = ls.rules ∧ k ≤ m ∧ m < k + f ∧
        generate_lsystem ls.axiomStr ls.rules m = t := by
  intro f
  induction f with
  | zero =>
    intro k a r m h
    exact absurd h (by simp [flsInner])
  | succ fm ih =>
    intro k a r m h
    rw [flsInner] at h
    by_cases h1 : generate_lsystem ls.axiomStr ls.rules k = t
    · rw [if_pos h1] at h
      have hp := Option.some.inj h
      have ha : ls.axiomStr = a := congrArg Prod.fst hp
      have hr : ls.rules = r := congrArg (fun v => v.2.1) hp
      have hm : k = m := congrArg (fun v => v.2.2) hp
      exact ⟨ha.symm, hr.symm, le_of_eq hm, by omega, hm ▸ h1⟩
    · rw [if_neg h1] at h
      by_cases h2 : t.length * 2 < (generate_lsystem ls.axiomStr ls.rules k).length
      · rw [if_pos h2] at h
        exact absurd h (by simp)
      · rw [if_neg h2] at h
        obtain ⟨ha, hr, hk, hmlt, hg⟩ := ih (k + 1) a r m h
        exact ⟨ha, hr, by omega, by omega, hg⟩

lemma flsInner_none (ls : LSys) (t : String) :
    ∀ (f k : Nat), 1 ≤ k →
      (∀ m, k ≤ m → m < k + f →
        (∀ j, 1 ≤ j → j < m →
          (generate_lsystem ls.axiomStr ls.rules j).length ≤ 2 * t.length) →
        generate_lsystem ls.axiomStr ls.rules m ≠ t) →
      (∀ j, 1 ≤ j → j < k →
        (generate_lsystem ls.axiomStr ls.rules j).length ≤ 2 * t.length) →
      flsInner ls t k f = none := by
  intro f
  induction f with
  | zero => intro k _ _ _; rfl
  | succ fm ih =>
    intro k hk hyp hprev
    rw [flsInner]
    have hne : generate_lsystem ls.axiomStr ls.rules k ≠ t :=
      hyp k (le_refl k) (by omega) hprev
    rw [if_neg hne]
    by_cases h2 : t.length * 2 < (generate_lsystem ls.axiomStr ls.rules k).length
    · rw [if_pos h2]
    · rw [if_neg h2]
      refine ih (k + 1) (by omega) ?_ ?_
      · intro m hm1 hm2 hg
        exact hyp m (by omega) (by omega) hg
      · intro j hj1 hj2
        by_cases hjk : j = k
        · subst hjk; omega
        · exact hprev j hj1 (by omega)

lemma flsOuter_sound :
    ∀ (es : List LSys) (t a : String) (r : List (Char × String)) (m : Nat),
      flsOuter es t = some (a, r, m) →
      ∃ ls ∈ es, flsInner ls t 1 14 = some (a, r, m) := by
  intro es
  induction es with
  | nil =>
    intro t a r m h
    exact absurd h (by simp [flsOuter])
  | cons l rest ih =>
    intro t a r m h
    rw [flsOuter] at h
    cases hi : flsInner l t 1 14 with
    | some v =>
      rw [hi] at h
      exact ⟨l, by simp, by rw [hi]; exact h⟩
    | none =>
      rw [hi] at h
      obtain ⟨ls, hmem, hfl⟩ := ih t a r m h
      exact ⟨ls, by simp [hmem], hfl⟩

lemma flsOuter_none :
    ∀ (es : List LSys) (t : String), (∀ ls ∈ es, flsInner ls t 1 14 = none) →
      flsOuter es t = none := by
  intro es
  induction es with
  | nil => intro t _; rfl
  | cons l rest ih =>
    intro t h
    rw [flsOuter, h l (by simp)]
    exact ih t (fun ls hm => h ls (by simp [hm]))

/-- **C9.** The L-system detector is a bounded search: any hit comes from a
catalog entry at a depth in `1..14` whose expansion equals the text; and on
text matched by no catalog entry at any *searched* depth (a depth is searched
only while every earlier expansion stayed within twice the target length),
the detector returns `none`. Termination on every input is by construction:
the search is the structurally bounded loop `flsInner`/`flsOuter`. -/
theorem C9_lsystem_bounded_search :
    (∀ (t a : String) (r : List (Char × String)) (k : Nat),
        find_lsystem t = some (a, r, k) →
          ∃ ls ∈ KNOWN_LSYSTEMS, a = ls.axiomStr ∧ r = ls.rules ∧
            1 ≤ k ∧ k ≤ 14 ∧ generate_lsystem a r k = t) ∧
    (∀ t : String,
        (∀ ls ∈ KNOWN_LSYSTEMS, ∀ k, k < 15 → 1 ≤ k →
            (∀ j, j < k → 1 ≤ j →
              (generate_lsystem ls.axiomStr ls.rules j).length ≤ 2 * t.length) →
            generate_lsystem ls.axiomStr ls.rules k ≠ t) →
        find_lsystem t = none) := by
  constructor
  · intro t a r k h
    obtain ⟨ls, hmem, hfl⟩ := flsOuter_sound KNOWN_LSYSTEMS t a r k h
    obtain ⟨ha, hr, hk1, hk2, hg⟩ := flsInner_sound ls t 14 1 a r k hfl
    exact ⟨ls, hmem, ha, hr, hk1, by omega, by rw [ha, hr]; exact hg⟩
  · intro t hyp
    apply flsOuter_none
    intro ls hmem
    refine flsInner_none ls t 14 1 (le_refl 1) ?_ ?_
    · intro m hm1 hm2 hg
      exact hyp ls hmem m (by omega) hm1 (fun j hj1 hj2 => hg j hj2 hj1)
    · intro j hj1 hj2
      omega

/-- Closed instance of `C9_lsystem_bounded_search`: no catalog L-system
generates `"hello"` at any searched depth, and the detector reports no match. -/
theorem C9_witness : find_lsystem "hello" = none :=
  C9_lsystem_bounded_search.2 "hello" (by decide)

/-- **C3 amended.** What `compress` actually guarantees: candidates are kept
only above ratio 1.0, and the retained best is returned without consulting
the dictionary fallback once its ratio reaches 1.5. In particular a pattern
candidate that is the only successful recognition, with ratio at least 1.5,
is returned exactly. (The counterexample `C3_cex_abab_not_minimal` shows the
discard behaviour below ratio 1.0.) -/
theorem C3_amended_gated_selection (hash : Bytes → String) (data : Bytes)
    (cp : CompressedData)
    (hp : tryPattern hash data = some cp)
    (hr : 3 / 2 ≤ ratioQ cp)
    (hl : ∀ chars, utf8DecodeL data = some chars → find_lsystem (String.mk chars) = none)
    (hn : parse_numbers data = none) :
    compress hash data = cp := by
  have h1 : (1 : ℚ) < ratioQ cp := lt_of_lt_of_le (by norm_num) hr
  have h2 : ¬(ratioQ cp < 3 / 2) := not_lt.mpr hr
  cases hu : utf8DecodeL data with
  | none =>
    simp only [compress, hp, hu, hn, if_pos h1]
    simp [h2]
  | some chars =>
    have hlc : tryLsystem (String.mk chars) data.length (hash data) = none := by
      rw [tryLsystem, hl chars hu]
    simp only [compress, hp, hu, hlc, hn, if_pos h1]
    simp [h2]

/-- Closed instance of `C3_amended_gated_selection` at `b"A" * 300`. -/
theorem C3_amended_witness :
    compress hashHex (List.replicate 300 65) =
      ⟨.PATTERN_REPEAT, .bytes [65], .count 300, 300,
        "00112233445566778899aabbccddeeff"⟩ :=
  C3_amended_gated_selection hashHex (List.replicate 300 65)
    ⟨.PATTERN_REPEAT, .bytes [65], .count 300, 300, "00112233445566778899aabbccddeeff"⟩
    (by decide)
    (by decide)
    (by
      intro chars h
      have hdec : utf8DecodeL (List.replicate 300 65) = some (List.replicate 300 'A') := by
        decide
      have hch : chars = List.replicate 300 'A' :=
        (Option.some.inj ((hdec.symm).trans h)).symm
      rw [hch]
      decide)
    (by decide)

/-! ## C8: ratio growth — symbolic evaluation of `compress` on `b"A" * N` -/

/-- All characters of a list are ASCII. -/
def asciiL (s : List Char) : Prop := ∀ c ∈ s, c.toNat < 128

instance : DecidablePred asciiL :=
  fun s => decidable_of_iff (∀ c ∈ s, c.toNat < 128) Iff.rfl

/-- Plain printable characters: ASCII, not a control character, and not a
JSON escape trigger — `json.dumps` emits them verbatim. -/
def plainStrL (s : String) : Prop :=
  ∀ c ∈ s.data, 32 ≤ c.toNat ∧ c.toNat < 127 ∧ c ≠ '"' ∧ c ≠ '\\'

instance : DecidablePred plainStrL :=
  fun s => decidable_of_iff (∀ c ∈ s.data, 32 ≤ c.toNat ∧ c.toNat < 127 ∧ c ≠ '"' ∧ c ≠ '\\')
    Iff.rfl

lemma utf8EncodeL_length_ascii : ∀ s : List Char, asciiL s → (utf8EncodeL s).length = s.length := by
  intro s
  induction s with
  | nil => intro _; rfl
  | cons c rest ih =>
    intro h
    have hc : c.toNat < 128 := h c (by simp)
    have hrest : asciiL rest := fun x hx => h x (by simp [hx])
    simp only [utf8EncodeL, List.map_cons, List.flatten_cons, List.length_append]
    rw [show (List.map charUtf8 rest).flatten = utf8EncodeL rest from rfl, ih hrest]
    simp [charUtf8, hc]
    omega

lemma jsonEscapeChar_plain (c : Char) (h1 : 32 ≤ c.toNat) (h2 : c.toNat < 127)
    (h3 : c ≠ '"') (h4 : c ≠ '\\') : jsonEscapeChar c = [c] := by
  rw [jsonEscapeChar]
  rw [if_neg h3, if_neg h4]
  rw [if_neg (by omega), if_neg (by omega), if_neg (by omega), if_neg (by omega),
    if_neg (by omega), if_neg (by omega), if_pos (by omega)]

lemma jsonStr_plain (s : String) (h : plainStrL s) : jsonStr s = '"' :: (s.data ++ ['"']) := by
  rw [jsonStr]
  have : ∀ l : List Char, (∀ c ∈ l, 32 ≤ c.toNat ∧ c.toNat < 127 ∧ c ≠ '"' ∧ c ≠ '\\') →
      (l.map jsonEscapeChar).flatten = l := by
    intro l
    induction l with
    | nil => intro _; rfl
    | cons c rest ih =>
      intro hl
      obtain ⟨p1, p2, p3, p4⟩ := hl c (by simp)
      simp only [List.map_cons, List.flatten_cons, jsonEscapeChar_plain c p1 p2 p3 p4]
      rw [ih (fun x hx => hl x (by simp [hx]))]
      rfl
  rw [this s.data h]
  simp

lemma intDec_ofNat (n : Nat) : intDec (n : Int) = natDec n := by
  rw [intDec, if_neg (by omega)]
  simp

lemma natDecAux_digits : ∀ f n c, c ∈ natDecAux f n → 48 ≤ c.toNat ∧ c.toNat ≤ 57 := by
  intro f
  induction f with
  | zero => intro n c h; simp [natDecAux] at h
  | succ m ih =>
    intro n c h
    rw [natDecAux] at h
    by_cases hn : n < 10
    · rw [if_pos hn] at h
      simp at h
      subst h
      interval_cases n <;> decide
    · rw [if_neg hn] at h
      rcases List.mem_append.mp h with h1 | h1
      · exact ih _ c h1
      · simp at h1
        subst h1
        have : n % 10 < 10 := Nat.mod_lt n (by omega)
        interval_cases hm : n % 10 <;> simp_all [digitChar]

lemma natDecAux_stable : ∀ f1 f2 n, n < f1 → n < f2 → natDecAux f1 n = natDecAux f2 n := by
  intro f1
  induction f1 with
  | zero => intro f2 n h1 _; omega
  | succ m1 ih =>
    intro f2 n h1 h2
    cases f2 with
    | zero => omega
    | succ m2 =>
      rw [natDecAux, natDecAux]
      by_cases hn : n < 10
      · rw [if_pos hn, if_pos hn]
      · rw [if_neg hn, if_neg hn]
        have hdiv : n / 10 < n := Nat.div_lt_self (by omega) (by omega)
        rw [ih m2 (n / 10) (by omega) (by omega)]

lemma natDec_unfold (n : Nat) :
    natDec n = if n < 10 then [digitChar n] else natDec (n / 10) ++ [digitChar (n % 10)] := by
  rw [natDec, natDecAux]
  by_cases hn : n < 10
  · rw [if_pos hn, if_pos hn]
  · rw [if_neg hn, if_neg hn]
    have hdiv : n / 10 < n := Nat.div_lt_self (by omega) (by omega)
    rw [natDecAux_stable n (n / 10 + 1) (n / 10) (by omega) (by omega)]
    rfl

lemma natDec_len3 (n : Nat) (h1 : 100 ≤ n) (h2 : n ≤ 999) : (natDec n).length = 3 := by
  rw [natDec_unfold, if_neg (by omega), List.length_append]
  rw [natDec_unfold, if_neg (by omega), List.length_append]
  rw [natDec_unfold, if_pos (by omega)]
  rfl

lemma utf8DecodeAux_replicateA : ∀ f n, n ≤ f →
    utf8DecodeAux f (List.replicate n 65) = some (List.replicate n 'A') := by
  intro f
  induction f with
  | zero =>
    intro n hn
    interval_cases n
    rfl
  | succ fm ih =>
    intro n hn
    cases n with
    | zero => rfl
    | succ m =>
      rw [List.replicate_succ, List.replicate_succ, utf8DecodeAux]
      rw [show utf8Step 65 (List.replicate m 65) = some (Char.ofNat 65, List.replicate m 65)
        from rfl]
      dsimp only
      rw [ih m (by omega)]

lemma utf8DecodeL_replicateA (n : Nat) :
    utf8DecodeL (List.replicate n 65) = some (List.replicate n 'A') := by
  rw [utf8DecodeL, List.length_replicate]
  exact utf8DecodeAux_replicateA n n (le_refl n)

lemma splitOnComma_replicateA : ∀ n, splitOnComma (List.replicate n 'A') = [List.replicate n 'A'] := by
  intro n
  induction n with
  | zero => rfl
  | succ m ih =>
    rw [List.replicate_succ, splitOnComma, if_neg (by decide), ih]

lemma dropWhile_of_all_neg {p : Char → Bool} : ∀ l : List Char, (∀ c ∈ l, ¬p c) → l.dropWhile p = l := by
  intro l h
  cases l with
  | nil => rfl
  | cons c rest =>
    rw [List.dropWhile_cons]
    rw [if_neg (by simpa using h c (by simp))]

lemma pyStrip_replicateA (n : Nat) : pyStrip (List.replicate n 'A') = List.replicate n 'A' := by
  have hall : ∀ c ∈ List.replicate n 'A', ¬isPyWs c := by
    intro c hc
    rw [List.eq_of_mem_replicate hc]
    decide
  rw [pyStrip, dropWhile_of_all_neg _ hall, List.reverse_replicate,
    dropWhile_of_all_neg _ hall, List.reverse_replicate]

lemma pyInt_replicateA (n : Nat) (hn : 1 ≤ n) : pyInt (List.replicate n 'A') = none := by
  obtain ⟨m, rfl⟩ : ∃ m, n = m + 1 := ⟨n - 1, by omega⟩
  rw [pyInt]
  rw [pyStrip_replicateA, List.replicate_succ]
  simp [allDigits]

lemma parse_numbers_replicateA (n : Nat) (hn : 1 ≤ n) :
    parse_numbers (List.replicate n 65) = none := by
  rw [parse_numbers]
  rw [utf8DecodeL_replicateA]
  simp only [Option.bind_eq_bind, Option.some_bind]
  rw [splitOnComma_replicateA]
  simp [List.mapM, List.mapM.loop, pyInt_replicateA n hn]

/-- A character with no production rule survives one rewriting pass. -/
lemma mem_lsysStep_of_no_rule (rules : List (Char × String)) (m : Char)
    (hm : rules.find? (fun p => p.1 = m) = none) (s : String) (hs : m ∈ s.data) :
    m ∈ (lsysStep rules s).data := by
  rw [lsysStep]
  refine List.mem_flatten.mpr ⟨(rulesGet rules m).data, List.mem_map_of_mem _ hs, ?_⟩
  rw [rulesGet, hm]
  simp

/-- A rule-less marker present after one pass stays present at every depth
at least 1. -/
lemma gen_marker (ls : LSys) (m : Char)
    (hm : ls.rules.find? (fun p => p.1 = m) = none)
    (hbase : m ∈ (generate_lsystem ls.axiomStr ls.rules 1).data) :
    ∀ k, 1 ≤ k → m ∈ (generate_lsystem ls.axiomStr ls.rules k).data := by
  intro k hk
  induction k with
  | zero => omega
  | succ n ih =>
    cases Nat.eq_zero_or_pos n with
    | inl h0 => subst h0; exact hbase
    | inr hpos =>
      exact mem_lsysStep_of_no_rule ls.rules m hm _ (ih hpos)

/-- No catalog L-system generates a pure run of `'A'`s at any depth `≥ 1`:
each entry's first expansion contains `'+'` or `'-'`, neither of which any
catalog rule rewrites. -/
lemma gen_ne_replicateA (ls : LSys) (hls : ls ∈ KNOWN_LSYSTEMS) (n : Nat) :
    ∀ k, 1 ≤ k → generate_lsystem ls.axiomStr ls.rules k ≠ String.mk (List.replicate n 'A') := by
  have key : ∃ m : Char, m ≠ 'A' ∧ ls.rules.find? (fun p => p.1 = m) = none ∧
      m ∈ (generate_lsystem ls.axiomStr ls.rules 1).data := by
    rw [KNOWN_LSYSTEMS] at hls
    simp only [List.mem_cons, List.not_mem_nil, or_false] at hls
    rcases hls with h | h | h | h <;> subst h
    · exact ⟨'+', by decide, by decide, by decide⟩
    · exact ⟨'-', by decide, by decide, by decide⟩
    · exact ⟨'+', by decide, by decide, by decide⟩
    · exact ⟨'+', by decide, by decide, by decide⟩
  obtain ⟨m, hmA, hrule, hbase⟩ := key
  intro k hk heq
  have hmem := gen_marker ls m hrule hbase k hk
  rw [heq] at hmem
  have : m = 'A' := List.eq_of_mem_replicate (by simpa using hmem)
  exact hmA this

/-- `flsInner` returns `none` whenever no searched depth can match. -/
lemma flsInner_none_of_ne (ls : LSys) (t : String)
    (h : ∀ k, 1 ≤ k → generate_lsystem ls.axiomStr ls.rules k ≠ t) :
    ∀ f k, 1 ≤ k → flsInner ls t k f = none := by
  intro f
  induction f with
  | zero => intro k _; rfl
  | succ fm ih =>
    intro k hk
    rw [flsInner, if_neg (h k hk)]
    by_cases h2 : t.length * 2 < (generate_lsystem ls.axiomStr ls.rules k).length
    · rw [if_pos h2]
    · rw [if_neg h2]
      exact ih (k + 1) (by omega)

lemma find_lsystem_replicateA (n : Nat) :
    find_lsystem (String.mk (List.replicate n 'A')) = none := by
  apply flsOuter_none
  intro ls hmem
  exact flsInner_none_of_ne ls _ (gen_ne_replicateA ls hmem n) 14 1 (le_refl 1)

/-- The pattern container `compress` builds for `b"A" * n`. -/
def patC (hash : Bytes → String) (n : Nat) : CompressedData :=
  ⟨.PATTERN_REPEAT, .bytes [65], .count (n : Int), n, hash (List.replicate n 65)⟩

lemma repeatList_single_65 : ∀ n, repeatList [65] n = List.replicate n 65 := by
  intro n
  induction n with
  | zero => rfl
  | succ m ih => rw [List.replicate_succ, repeatList, ih]; rfl

lemma frp_replicateA (n : Nat) (hn : 2 ≤ n) :
    find_repeating_pattern (List.replicate n 65) = some ([65], n) := by
  rw [find_repeating_pattern]
  simp only [List.length_replicate]
  rw [if_neg (by omega)]
  obtain ⟨f, hf⟩ : ∃ f, n / 2 = f + 1 := ⟨n / 2 - 1, by omega⟩
  rw [hf, frpFrom]
  have htake : (List.replicate n 65).take 1 = [65] := by
    rw [List.take_replicate, Nat.min_eq_left (by omega)]
    rfl
  rw [if_pos ⟨Nat.mod_one n, by rw [htake, Nat.div_one, repeatList_single_65]⟩]
  rw [htake, Nat.div_one]

lemma tryPattern_replicateA (hash : Bytes → String) (n : Nat) (hn : 2 ≤ n) :
    tryPattern hash (List.replicate n 65) = some (patC hash n) := by
  rw [tryPattern, frp_replicateA n hn]
  simp [patC]

lemma payload_patC_len (hash : Bytes → String)
    (h32 : ∀ b, (hash b).length = 32 ∧ plainStrL (hash b)) (n : Nat) :
    (payloadChars (patC hash n)).length = 130 + 2 * (natDec n).length := by
  obtain ⟨hl, hp⟩ := h32 (List.replicate n 65)
  have hld : (hash (List.replicate n 65)).data.length = 32 := hl
  have hhash : (jsonStr (hash (List.replicate n 65))).length = 34 := by
    rw [jsonStr_plain _ hp]
    simp [hld]
  have hseed : (seedJson (Seed.bytes [65])).length = 4 := rfl
  have hparams : (paramsJson (GenParams.count (n : Int))).length = 11 + (natDec n).length := by
    rw [paramsJson, jsonInt, intDec_ofNat]
    simp [List.length_append]
    omega
  rw [payloadChars]
  simp only [patC, Seed.isBytes, CompressionType.value, List.length_append,
    hhash, hseed, hparams]
  norm_num [show (natDec 1).length = 1 from rfl]
  omega

lemma ascii_natDec (n : Nat) : asciiL (natDec n) := by
  intro c hc
  have := natDecAux_digits (n + 1) n c hc
  omega

lemma asciiL_append {a b : List Char} (ha : asciiL a) (hb : asciiL b) : asciiL (a ++ b) := by
  intro c hc
  rcases List.mem_append.mp hc with h | h
  · exact ha c h
  · exact hb c h

lemma ascii_payload_patC (hash : Bytes → String)
    (h32 : ∀ b, (hash b).length = 32 ∧ plainStrL (hash b)) (n : Nat) :
    asciiL (payloadChars (patC hash n)) := by
  obtain ⟨hl, hp⟩ := h32 (List.replicate n 65)
  have hhash : asciiL (jsonStr (hash (List.replicate n 65))) := by
    rw [jsonStr_plain _ hp]
    intro c hc
    rcases List.mem_cons.mp hc with h | h
    · subst h; decide
    · rcases List.mem_append.mp h with h1 | h1
      · exact (hp c h1).2.1.trans_le (by omega)
      · simp at h1; subst h1; decide
  have hparams : asciiL (paramsJson (GenParams.count (n : Int))) := by
    rw [paramsJson, jsonInt, intDec_ofNat]
    refine asciiL_append (asciiL_append (by decide) (ascii_natDec n)) (by decide)
  rw [payloadChars]
  simp only [patC, Seed.isBytes, CompressionType.value]
  refine asciiL_append (asciiL_append (asciiL_append (asciiL_append (asciiL_append
    (asciiL_append (asciiL_append (asciiL_append (asciiL_append (asciiL_append
    (asciiL_append (asciiL_append (by decide) (by decide)) (by decide)) (by decide))
    (by decide)) (by decide)) (by decide)) hparams) (by decide)) (ascii_natDec n))
    (by decide)) hhash) (by decide)

lemma size_patC (hash : Bytes → String)
    (h32 : ∀ b, (hash b).length = 32 ∧ plainStrL (hash b)) (n : Nat) :
    compressed_size (patC hash n) = 139 + 2 * (natDec n).length := by
  rw [compressed_size, to_bytes]
  simp only [List.length_append, u32le, MAGIC_BYTES]
  rw [utf8EncodeL_length_ascii _ (ascii_payload_patC hash h32 n), payload_patC_len hash h32 n]
  simp
  omega

lemma ratioQ_patC (hash : Bytes → String)
    (h32 : ∀ b, (hash b).length = 32 ∧ plainStrL (hash b)) (n : Nat) :
    ratioQ (patC hash n) = (n : ℚ) / ((139 + 2 * (natDec n).length : Nat) : ℚ) := by
  rw [ratioQ, size_patC hash h32 n]
  rfl

/-- When the pattern candidate passes the `> 1.0` gate and every other
recognition misses, `compress` returns it (the modelled dictionary coder
never shrinks its input, so the fallback branch returns nothing). -/
lemma compress_pattern_only (hash : Bytes → String) (data : Bytes) (cp : CompressedData)
    (hp : tryPattern hash data = some cp)
    (h1 : 1 < ratioQ cp)
    (hl : ∀ chars, utf8DecodeL data = some chars → find_lsystem (String.mk chars) = none)
    (hn : parse_numbers data = none)
    (hdict : tryDictionary data data.length (hash data) = none) :
    compress hash data = cp := by
  cases hu : utf8DecodeL data with
  | none =>
    simp only [compress, hp, hu, hn, if_pos h1]
    simp [hdict]
  | some chars =>
    have hlc : tryLsystem (String.mk chars) data.length (hash data) = none := by
      rw [tryLsystem, hl chars hu]
    simp only [compress, hp, hu, hlc, hn, if_pos h1]
    simp [hdict]

/-- The modelled dictionary strategy never accepts: its zlib stream is always
6 bytes longer than the input (real zlib also cannot profit on the inputs the
theorems below feed into this branch). -/
lemma tryDictionary_self_none (data : Bytes) (h : String) :
    tryDictionary data data.length h = none := by
  rw [tryDictionary]
  rw [if_pos]
  simp [zlib_compress]
  omega

/-- `compress` on `b"A" * n`: once the 145-ish byte container is smaller than
the input, the pattern candidate wins and is returned unchanged. -/
lemma compress_replicateA (hash : Bytes → String)
    (h32 : ∀ b, (hash b).length = 32 ∧ plainStrL (hash b))
    (n : Nat) (hn2 : 2 ≤ n) (hgt : 139 + 2 * (natDec n).length < n) :
    compress hash (List.replicate n 65) = patC hash n := by
  refine compress_pattern_only hash _ _ (tryPattern_replicateA hash n hn2) ?_ ?_ ?_ ?_
  · rw [ratioQ_patC hash h32 n]
    rw [one_lt_div (by positivity)]
    exact_mod_cast hgt
  · intro chars hch
    have hdec := utf8DecodeL_replicateA n
    rw [hch] at hdec
    rw [show chars = List.replicate n 'A' from Option.some.inj hdec]
    exact find_lsystem_replicateA n
  · exact parse_numbers_replicateA n (by omega)
  · exact tryDictionary_self_none _ _

/-- **C8 counterexample.** The claim states the ratio strictly increases with
the repeat count throughout the range where the repeated-pattern kind is
selected. At the decimal digit boundary it fails: for `b"A" * N` both `count`
and `orig_size` gain a digit from `N = 999` to `N = 1000`, the container
grows from 145 to 147 bytes, and the ratio strictly drops from `999/145`
to `1000/147` — although both containers are pattern containers. -/
theorem C8_cex_ratio_drops_at_digit_boundary :
    compress hashHex (List.replicate 999 65) = patC hashHex 999 ∧
    compress hashHex (List.replicate 1000 65) = patC hashHex 1000 ∧
    ratioQ (compress hashHex (List.replicate 1000 65)) <
      ratioQ (compress hashHex (List.replicate 999 65)) := by
  have h32 : ∀ b, (hashHex b).length = 32 ∧ plainStrL (hashHex b) :=
    fun b => ⟨rfl, show plainStrL "00112233445566778899aabbccddeeff" from by decide⟩
  have e1 := compress_replicateA hashHex h32 999 (by omega)
    (by rw [show (natDec 999).length = 3 from rfl]; omega)
  have e2 := compress_replicateA hashHex h32 1000 (by omega)
    (by rw [show (natDec 1000).length = 4 from rfl]; omega)
  refine ⟨e1, e2, ?_⟩
  rw [e1, e2, ratioQ_patC hashHex h32 999, ratioQ_patC hashHex h32 1000]
  rw [show (natDec 999).length = 3 from rfl, show (natDec 1000).length = 4 from rfl]
  norm_num

/-- **C8 amended.** For a fixed pattern the container size varies only with
the decimal digit counts of `count` and `orig_size`, so the ratio strictly
increases with the repeat count within any digit-stable stretch of the
pattern-selected range — here `b"A" * N` for `146 ≤ N ≤ 999` (constant
145-byte container) — while it can strictly decrease across digit
boundaries (`C8_cex_ratio_drops_at_digit_boundary`). -/
theorem C8_amended_ratio_monotone_in_digit_range (hash : Bytes → String)
    (h32 : ∀ b, (hash b).length = 32 ∧ plainStrL (hash b))
    (N1 N2 : Nat) (ha : 146 ≤ N1) (hb : N1 < N2) (hc : N2 ≤ 999) :
    ratioQ (compress hash (List.replicate N1 65)) <
      ratioQ (compress hash (List.replicate N2 65)) := by
  have d1 : (natDec N1).length = 3 := natDec_len3 N1 (by omega) (by omega)
  have d2 : (natDec N2).length = 3 := natDec_len3 N2 (by omega) (by omega)
  rw [compress_replicateA hash h32 N1 (by omega) (by omega)]
  rw [compress_replicateA hash h32 N2 (by omega) (by omega)]
  rw [ratioQ_patC hash h32 N1, ratioQ_patC hash h32 N2, d1, d2]
  have hpos : (0 : ℚ) < ((139 + 2 * 3 : Nat) : ℚ) := by norm_num
  rw [div_lt_div_iff_of_pos_right hpos]
  exact_mod_cast hb

/-- Closed instance of `C8_amended_ratio_monotone_in_digit_range` at
`N1 = 300 < N2 = 301`. -/
theorem C8_amended_witness :
    ratioQ (compress hashHex (List.replicate 300 65)) <
      ratioQ (compress hashHex (List.replicate 301 65)) :=
  C8_amended_ratio_monotone_in_digit_range hashHex
    (fun b => ⟨rfl, show plainStrL "00112233445566778899aabbccddeeff" from by decide⟩)
    300 301 (by decide) (by decide) (by decide)

/-! ## C7: container parsing (`CompressedData.from_bytes`)

`from_bytes` delegates the payload to `json.loads`. The parser below targets
exactly the JSON grammar `to_bytes` emits (`json.dumps` with default
separators and key order); `json.loads` is a general JSON parser, so on
payloads outside that grammar (extra whitespace, other key orders, exotic
escapes, floats) the model errors where CPython might still parse — no claim
distinguishes those inputs. -/

/-- The shape of the parsed `seed` JSON value: a string or a sequence dict. -/
inductive JSeed
  | s (x : String)
  | q (x : SeqSeed)
deriving DecidableEq, Repr

/-- The seed value as it appears inside the serialized payload. -/
def jseedOf : Seed → JSeed
  | .bytes b => .s (String.mk (hexEncode b))
  | .str x => .s x
  | .seq qq => .q qq

/-- Consume an exact literal prefix. -/
def parseLit : List Char → List Char → Option (List Char)
  | [], input => some input
  | _ :: _, [] => none
  | l :: ls, c :: cs => if c = l then parseLit ls cs else none

/-- ASCII decimal digit test. -/
def isDigitCh (c : Char) : Bool := 48 ≤ c.toNat ∧ c.toNat ≤ 57

/-- Parse a non-empty digit run as a natural number. -/
def parseNat (input : List Char) : Option (Nat × List Char) :=
  let ds := input.takeWhile isDigitCh
  if ds = [] then none else some (digitsVal ds, input.dropWhile isDigitCh)

/-- Parse a JSON integer (optional minus sign, digit run). -/
def parseInt (input : List Char) : Option (Int × List Char) :=
  match input with
  | [] => none
  | c :: rest =>
    if c = '-' then (parseNat rest).map (fun p => (-(p.1 : Int), p.2))
    else (parseNat (c :: rest)).map (fun p => ((p.1 : Int), p.2))

/-- Parse the body of a JSON string after its opening quote, unescaping the
two escapes `to_bytes` can emit for plain payloads. -/
def parseJStrAux : List Char → Option (List Char × List Char)
  | [] => none
  | c :: rest =>
    if c = '"' then some ([], rest)
    else if c = '\\' then
      match rest with
      | [] => none
      | e :: rest2 =>
        if e = '"' ∨ e = '\\' then
          match parseJStrAux rest2 with
          | none => none
          | some (s, r) => some (e :: s, r)
        else none
    else
      match parseJStrAux rest with
      | none => none
      | some (s, r) => some (c :: s, r)

/-- Parse the float rendering `ratRepr` emits for a geometric ratio. -/
def parseRat (input : List Char) : Option (ℚ × List Char) :=
  match parseInt input with
  | none => none
  | some (num, r1) =>
    match r1 with
    | '.' :: '0' :: r2 => some ((num : ℚ), r2)
    | '/' :: r2 =>
      match parseNat r2 with
      | none => none
      | some (den, r3) => some (Rat.divInt num (den : Int), r3)
    | _ => none

/-- Parse a sequence-seed dict body after the opening brace and
`"type": "<name>"` have identified the variant. -/
def parseSeqFields (name : List Char) (input : List Char) : Option (SeqSeed × List Char) :=
  if name = "arithmetic".data then do
    let r1 ← parseLit ", \"start\": ".data input
    let (start, r2) ← parseInt r1
    let r3 ← parseLit ", \"step\": ".data r2
    let (step, r4) ← parseInt r3
    let r5 ← parseLit ", \"count\": ".data r4
    let (count, r6) ← parseInt r5
    let r7 ← parseLit "\x7d".data r6
    pure (SeqSeed.arithmetic start step count, r7)
  else if name = "geometric".data then do
    let r1 ← parseLit ", \"start\": ".data input
    let (start, r2) ← parseInt r1
    let r3 ← parseLit ", \"ratio\": ".data r2
    let (rq, r4) ← parseRat r3
    let r5 ← parseLit ", \"count\": ".data r4
    let (count, r6) ← parseInt r5
    let r7 ← parseLit "\x7d".data r6
    pure (SeqSeed.geometric start rq count, r7)
  else if name = "fibonacci".data then do
    let r1 ← parseLit ", \"a\": ".data input
    let (a, r2) ← parseInt r1
    let r3 ← parseLit ", \"b\": ".data r2
    let (b, r4) ← parseInt r3
    let r5 ← parseLit ", \"count\": ".data r4
    let (count, r6) ← parseInt r5
    let r7 ← parseLit "\x7d".data r6
    pure (SeqSeed.fibonacci a b count, r7)
  else if name = "powers".data then do
    let r1 ← parseLit ", \"base\": ".data input
    let (base, r2) ← parseInt r1
    let r3 ← parseLit ", \"count\": ".data r2
    let (count, r4) ← parseInt r3
    let r5 ← parseLit "\x7d".data r4
    pure (SeqSeed.powers base count, r5)
  else if name = "primes".data then do
    let r1 ← parseLit ", \"count\": ".data input
    let (count, r2) ← parseInt r1
    let r3 ← parseLit "\x7d".data r2
    pure (SeqSeed.primes count, r3)
  else none

/-- Parse the serialized `seed` field: a JSON string or a sequence dict. -/
def parseSeed (input : List Char) : Option (JSeed × List Char) :=
  match input with
  | [] => none
  | c :: rest =>
    if c = '"' then
      match parseJStrAux rest with
      | none => none
      | some (s, r) => some (JSeed.s (String.mk s), r)
    else if c = '\x7b' then
      match parseLit "\"type\": \"".data rest with
      | none => none
      | some r1 =>
        match parseJStrAux r1 with
        | none => none
        | some (name, r2) =>
          match parseSeqFields name r2 with
          | none => none
          | some (qq, r3) => some (JSeed.q qq, r3)
    else none

/-- Parse the entries of a non-empty rules dict (fuelled; fuel bounds the
number of entries, one per recursive call). -/
def parseRulesAux : Nat → List Char → Option (List (Char × String) × List Char)
  | 0, _ => none
  | f + 1, input =>
    match input with
    | '"' :: r0 =>
      match parseJStrAux r0 with
      | some ([kc], r1) =>
        match parseLit ": ".data r1 with
        | some ('"' :: r2) =>
          match parseJStrAux r2 with
          | some (v, r3) =>
            match r3 with
            | '\x7d' :: r4 => some ([(kc, String.mk v)], r4)
            | ',' :: ' ' :: r4 =>
              match parseRulesAux f r4 with
              | some (more, r5) => some ((kc, String.mk v) :: more, r5)
              | none => none
            | _ => none
          | none => none
        | _ => none
      | _ => none
    | _ => none

/-- Parse a rules dict after its opening brace. -/
def parseRules (input : List Char) : Option (List (Char × String) × List Char) :=
  match input with
  | '\x7d' :: r => some ([], r)
  | _ => parseRulesAux input.length input

/-- Parse the serialized `generator_params` dict. -/
def parseParams (input : List Char) : Option (GenParams × List Char) :=
  match input with
  | [] => none
  | c :: rest =>
    if c = '\x7b' then
      match rest with
      | '\x7d' :: r => some (GenParams.empty, r)
      | '"' :: 'c' :: r => do
        let r1 ← parseLit "ount\": ".data r
        let (n, r2) ← parseInt r1
        let r3 ← parseLit "\x7d".data r2
        pure (GenParams.count n, r3)
      | '"' :: 'r' :: r => do
        let r1 ← parseLit "ules\": \x7b".data r
        let (rules, r2) ← parseRules r1
        let r3 ← parseLit ", \"iterations\": ".data r2
        let (iters, r4) ← parseInt r3
        let r5 ← parseLit "\x7d".data r4
        pure (GenParams.lsys rules iters, r5)
      | _ => none
    else none

/-- Parse the whole payload `to_bytes` emits (`json.loads` restricted to that
grammar). -/
def payloadParse (input : List Char) :
    Option (Int × JSeed × Bool × GenParams × Nat × String) := do
  let r1 ← parseLit "\x7b\"type\": ".data input
  let (t, r2) ← parseInt r1
  let r3 ← parseLit ", \"seed\": ".data r2
  let (jseed, r4) ← parseSeed r3
  let r5 ← parseLit ", \"seed_is_bytes\": ".data r4
  let (isb, r6) ← (match r5 with
    | 't' :: 'r' :: 'u' :: 'e' :: r => some (true, r)
    | 'f' :: 'a' :: 'l' :: 's' :: 'e' :: r => some (false, r)
    | _ => none : Option (Bool × List Char))
  let r7 ← parseLit ", \"params\": ".data r6
  let (params, r8) ← parseParams r7
  let r9 ← parseLit ", \"orig_size\": ".data r8
  let (osize, r10) ← parseNat r9
  let r11 ← parseLit ", \"hash\": ".data r10
  let (hashS, r12) ← (match r11 with
    | '"' :: r => (parseJStrAux r).map (fun p => (String.mk p.1, p.2))
    | _ => none : Option (String × List Char))
  let r13 ← parseLit "\x7d".data r12
  match r13 with
  | [] => some (t, jseed, isb, params, osize, hashS)
  | _ => none

/-- `struct.unpack('<I', ...)` on the four bytes at the head. -/
def le32val : Bytes → Nat
  | b0 :: b1 :: b2 :: b3 :: _ => b0 + 256 * b1 + 65536 * b2 + 16777216 * b3
  | _ => 0

/-- `CompressedData.from_bytes`: check magic and version, read the
little-endian payload length, decode and parse the payload, hex-decode a
bytes seed, and rebuild the dataclass; every failure raises.
`decodePayload` is the second half of `from_bytes`: `json.loads` of the
decoded payload text and reconstruction of the dataclass fields. -/
def decodePayload (chars : List Char) : Except String CompressedData :=
  match payloadParse chars with
  | none => .error "json.JSONDecodeError"
  | some (t, jseed, isb, params, osize, hashS) =>
    match (if isb then
             (match jseed with
              | .s x => (hexDecode x.data).map Seed.bytes
              | .q _ => none)
           else
             some (match jseed with
                   | .s x => Seed.str x
                   | .q qq => Seed.seq qq)) with
    | none => .error "ValueError: invalid hex seed"
    | some seed =>
      match CompressionType.ofValue t with
      | none => .error "ValueError: not a valid CompressionType"
      | some ct => .ok ⟨ct, seed, params, osize, hashS⟩

def from_bytes (data : Bytes) : Except String CompressedData :=
  if data.take 4 ≠ MAGIC_BYTES then .error "Not a semantic compressed file"
  else
    match data[4]? with
    | none => .error "IndexError: index out of range"
    | some v =>
      if v ≠ VERSION_NUM then .error ("Unsupported version: " ++ String.mk (natDec v))
      else if (data.drop 5).length < 4 then .error "struct.error: unpack requires 4 bytes"
      else
        match utf8DecodeL ((data.drop 9).take (le32val (data.drop 5))) with
        | none => .error "UnicodeDecodeError"
        | some chars => decodePayload chars

lemma parseLit_append : ∀ (l rest : List Char), parseLit l (l ++ rest) = some rest := by
  intro l
  induction l with
  | nil => intro rest; rfl
  | cons c cs ih =>
    intro rest
    rw [List.cons_append, parseLit, if_pos rfl]
    exact ih rest

lemma string_mk_data : ∀ s : String, String.mk s.data = s := fun ⟨_⟩ => rfl

lemma digitsVal_append_singleton (xs : List Char) (c : Char) :
    digitsVal (xs ++ [c]) = digitsVal xs * 10 + (c.toNat - 48) := by
  rw [digitsVal, digitsVal, List.foldl_append]
  rfl

lemma digitChar_toNat (d : Nat) (h : d < 10) : (digitChar d).toNat = 48 + d := by
  interval_cases d <;> decide

lemma natDec_digitsVal : ∀ n, digitsVal (natDec n) = n := by
  intro n
  induction n using Nat.strong_induction_on with
  | _ n ih =>
    rw [natDec_unfold]
    by_cases h : n < 10
    · rw [if_pos h]
      rw [digitsVal]
      simp [List.foldl, digitChar_toNat n h]
    · rw [if_neg h, digitsVal_append_singleton,
        ih (n / 10) (Nat.div_lt_self (by omega) (by omega)),
        digitChar_toNat (n % 10) (Nat.mod_lt n (by omega))]
      omega

lemma natDec_digits (n : Nat) : ∀ c ∈ natDec n, isDigitCh c = true := by
  intro c hc
  have := natDecAux_digits (n + 1) n c hc
  simp [isDigitCh]
  omega

lemma natDec_ne_nil (n : Nat) : natDec n ≠ [] := by
  rw [natDec_unfold]
  by_cases h : n < 10
  · rw [if_pos h]; simp
  · rw [if_neg h]; simp

lemma takeWhile_dropWhile_append {p : Char → Bool} (l rest : List Char)
    (hl : ∀ c ∈ l, p c = true) (hr : ∀ r t, rest = r :: t → p r = false) :
    (l ++ rest).takeWhile p = l ∧ (l ++ rest).dropWhile p = rest := by
  induction l with
  | nil =>
    simp only [List.nil_append]
    cases rest with
    | nil => exact ⟨rfl, rfl⟩
    | cons r t =>
      rw [List.takeWhile_cons, List.dropWhile_cons, hr r t rfl]
      exact ⟨rfl, rfl⟩
  | cons c cs ih =>
    obtain ⟨h1, h2⟩ := ih (fun x hx => hl x (by simp [hx]))
    rw [List.cons_append, List.takeWhile_cons, List.dropWhile_cons, hl c (by simp)]
    simp only [if_true]
    exact ⟨by rw [h1], by rw [h2]⟩

lemma parseNat_natDec (n : Nat) (rest : List Char)
    (hr : ∀ r t, rest = r :: t → isDigitCh r = false) :
    parseNat (natDec n ++ rest) = some (n, rest) := by
  obtain ⟨ht, hd⟩ := takeWhile_dropWhile_append (natDec n) rest (natDec_digits n) hr
  rw [parseNat]
  simp only [ht, hd]
  rw [if_neg (natDec_ne_nil n), natDec_digitsVal]

lemma digit_ne_minus (c : Char) (h : isDigitCh c = true) : ¬(c = '-') := by
  intro he
  subst he
  simp [isDigitCh] at h

lemma parseInt_intDec (i : Int) (rest : List Char)
    (hr : ∀ r t, rest = r :: t → isDigitCh r = false) :
    parseInt (intDec i ++ rest) = some (i, rest) := by
  by_cases hneg : i < 0
  · rw [intDec, if_pos hneg, List.cons_append, parseInt, if_pos rfl,
      parseNat_natDec i.natAbs rest hr]
    show some (-(i.natAbs : Int), rest) = some (i, rest)
    rw [show (-(i.natAbs : Int)) = i by omega]
  · rw [intDec, if_neg hneg]
    obtain ⟨d, ds, he⟩ := List.exists_cons_of_ne_nil (natDec_ne_nil i.natAbs)
    have hd : isDigitCh d = true := natDec_digits i.natAbs d (by rw [he]; simp)
    rw [he, List.cons_append, parseInt, if_neg (digit_ne_minus d hd), ← List.cons_append, ← he,
      parseNat_natDec i.natAbs rest hr]
    show some ((i.natAbs : Int), rest) = some (i, rest)
    rw [show ((i.natAbs : Int)) = i by omega]

lemma parseJStrAux_plain : ∀ (l rest : List Char), (∀ c ∈ l, c ≠ '"' ∧ c ≠ '\\') →
    parseJStrAux (l ++ '"' :: rest) = some (l, rest) := by
  intro l
  induction l with
  | nil =>
    intro rest _
    rw [List.nil_append, parseJStrAux.eq_def]
    dsimp only
    rw [if_pos rfl]
  | cons c cs ih =>
    intro rest h
    obtain ⟨h1, h2⟩ := h c (by simp)
    rw [List.cons_append, parseJStrAux.eq_def]
    dsimp only
    rw [if_neg h1, if_neg h2, ih rest (fun x hx => h x (by simp [hx]))]

/-- Well-formedness of a seed for the serialization round trip: byte seeds
hold genuine bytes, string seeds are plain printable text (hex strings and
catalog axioms are), and the geometric float seed is excluded — Python's
shortest-roundtrip float repr has no exact rational model (`ratRepr`). -/
def wfSeed : Seed → Prop
  | .bytes b => ∀ x ∈ b, x < 256
  | .str s => plainStrL s
  | .seq (.geometric _ _ _) => False
  | .seq _ => True

/-- Well-formedness of generator params: rule keys and productions are plain
printable text (the catalog's are). -/
def wfParams : GenParams → Prop
  | .count _ => True
  | .lsys rules _ =>
    ∀ p ∈ rules, (32 ≤ p.1.toNat ∧ p.1.toNat < 127 ∧ p.1 ≠ '"' ∧ p.1 ≠ '\\') ∧ plainStrL p.2
  | .empty => True

/-- Well-formedness of a container for the serialization round trip. -/
def wfContainer (c : CompressedData) : Prop :=
  plainStrL c.original_hash ∧ wfSeed c.seed ∧ wfParams c.generator_params ∧
    (utf8EncodeL (payloadChars c)).length < 2 ^ 32

lemma plain_ne (s : String) (hp : plainStrL s) : ∀ c ∈ s.data, c ≠ '"' ∧ c ≠ '\\' :=
  fun c hc => ⟨(hp c hc).2.2.1, (hp c hc).2.2.2⟩

lemma head_not_digit (c : Char) (hc : isDigitCh c = false) (l : List Char) :
    ∀ r t, (c :: l) = r :: t → isDigitCh r = false := by
  intro r t he
  injection he with h1 _
  rw [← h1]
  exact hc

lemma hexDigit_plain (d : Nat) (h : d < 16) :
    32 ≤ (hexDigit d).toNat ∧ (hexDigit d).toNat < 127 ∧ hexDigit d ≠ '"' ∧ hexDigit d ≠ '\\' := by
  interval_cases d <;> decide

lemma hexEncode_plain (b : Bytes) (hb : ∀ x ∈ b, x < 256) :
    plainStrL (String.mk (hexEncode b)) := by
  induction b with
  | nil => intro c hc; simp [hexEncode] at hc
  | cons x rest ih =>
    intro c hc
    rw [show (String.mk (hexEncode (x :: rest))).data = hexEncode (x :: rest) from rfl,
      hexEncode] at hc
    have hx : x < 256 := hb x (by simp)
    rcases List.mem_cons.mp hc with h | h
    · subst h; exact hexDigit_plain _ (by omega)
    · rcases List.mem_cons.mp h with h2 | h2
      · subst h2; exact hexDigit_plain _ (by omega)
      · exact ih (fun y hy => hb y (by simp [hy])) c h2

lemma hexVal_hexDigit (d : Nat) (h : d < 16) : hexVal (hexDigit d) = some d := by
  interval_cases d <;> decide

lemma hexDecode_hexEncode (b : Bytes) (hb : ∀ x ∈ b, x < 256) :
    hexDecode (hexEncode b) = some b := by
  induction b with
  | nil => rfl
  | cons x rest ih =>
    have hx : x < 256 := hb x (by simp)
    rw [hexEncode, hexDecode.eq_def]
    dsimp only
    rw [hexVal_hexDigit (x / 16) (by omega), hexVal_hexDigit (x % 16) (by omega),
      ih (fun y hy => hb y (by simp [hy]))]
    show some ((x / 16 * 16 + x % 16) :: rest) = some (x :: rest)
    rw [show x / 16 * 16 + x % 16 = x by omega]

lemma parseSeed_str (s : String) (hp : plainStrL s) (rest : List Char) :
    parseSeed (jsonStr s ++ rest) = some (JSeed.s s, rest) := by
  rw [jsonStr_plain s hp, List.cons_append, parseSeed]
  rw [if_pos rfl]
  simp only [List.append_assoc, List.singleton_append]
  rw [parseJStrAux_plain s.data rest (plain_ne s hp)]

lemma parseInt_cons (i : Int) (c : Char) (l : List Char) (h : isDigitCh c = false) :
    parseInt (intDec i ++ (c :: l)) = some (i, c :: l) :=
  parseInt_intDec i _ (by intro r t he; injection he with h1 _; rw [← h1]; exact h)

lemma parseNat_cons (n : Nat) (c : Char) (l : List Char) (h : isDigitCh c = false) :
    parseNat (natDec n ++ (c :: l)) = some (n, c :: l) :=
  parseNat_natDec n _ (by intro r t he; injection he with h1 _; rw [← h1]; exact h)

lemma parseInt_natDec_cons (n : Nat) (c : Char) (l : List Char) (h : isDigitCh c = false) :
    parseInt (natDec n ++ (c :: l)) = some ((n : Int), c :: l) := by
  have := parseInt_cons (n : Int) c l h
  rw [intDec_ofNat] at this
  exact this

lemma parseSeed_arith (a st c : Int) (rest : List Char) :
    parseSeed (seqSeedJson (SeqSeed.arithmetic a st c) ++ rest) =
      some (JSeed.q (SeqSeed.arithmetic a st c), rest) := by
  rw [seqSeedJson]
  simp only [jsonInt]
  simp [parseSeed, parseLit, parseJStrAux, parseSeqFields, parseInt_cons, isDigitCh,
    Option.bind_eq_bind, Option.some_bind, List.cons_append, List.append_assoc, string_mk_data]

lemma parseSeed_fib (a b c : Int) (rest : List Char) :
    parseSeed (seqSeedJson (SeqSeed.fibonacci a b c) ++ rest) =
      some (JSeed.q (SeqSeed.fibonacci a b c), rest) := by
  rw [seqSeedJson]
  simp only [jsonInt]
  simp [parseSeed, parseLit, parseJStrAux, parseSeqFields, parseInt_cons, isDigitCh,
    Option.bind_eq_bind, Option.some_bind, List.cons_append, List.append_assoc, string_mk_data]

lemma parseSeed_powers (b c : Int) (rest : List Char) :
    parseSeed (seqSeedJson (SeqSeed.powers b c) ++ rest) =
      some (JSeed.q (SeqSeed.powers b c), rest) := by
  rw [seqSeedJson]
  simp only [jsonInt]
  simp [parseSeed, parseLit, parseJStrAux, parseSeqFields, parseInt_cons, isDigitCh,
    Option.bind_eq_bind, Option.some_bind, List.cons_append, List.append_assoc, string_mk_data]

lemma parseSeed_primes (c : Int) (rest : List Char) :
    parseSeed (seqSeedJson (SeqSeed.primes c) ++ rest) =
      some (JSeed.q (SeqSeed.primes c), rest) := by
  rw [seqSeedJson]
  simp only [jsonInt]
  simp [parseSeed, parseLit, parseJStrAux, parseSeqFields, parseInt_cons, isDigitCh,
    Option.bind_eq_bind, Option.some_bind, List.cons_append, List.append_assoc, string_mk_data]

/-- The seed field of a well-formed container parses back to its payload
form. -/
lemma parseSeed_encode (s : Seed) (hw : wfSeed s) (rest : List Char) :
    parseSeed (seedJson s ++ rest) = some (jseedOf s, rest) := by
  cases s with
  | bytes b => exact parseSeed_str _ (hexEncode_plain b hw) rest
  | str x => exact parseSeed_str x hw rest
  | seq qq =>
    cases qq with
    | arithmetic a st c => exact parseSeed_arith a st c rest
    | geometric a r c => exact absurd hw (by simp [wfSeed])
    | fibonacci a b c => exact parseSeed_fib a b c rest
    | powers b c => exact parseSeed_powers b c rest
    | primes c => exact parseSeed_primes c rest

lemma parseJStr_single (kc : Char) (h1 : kc ≠ '"') (h2 : kc ≠ '\\') (rest : List Char) :
    parseJStrAux (kc :: '"' :: rest) = some ([kc], rest) := by
  have := parseJStrAux_plain [kc] rest (by intro c hc; simp at hc; subst hc; exact ⟨h1, h2⟩)
  simpa using this

lemma parseRulesAux_encode :
    ∀ (rules : List (Char × String)) (f : Nat) (rest : List Char),
      rules ≠ [] → rules.length ≤ f →
      (∀ p ∈ rules, (32 ≤ p.1.toNat ∧ p.1.toNat < 127 ∧ p.1 ≠ '"' ∧ p.1 ≠ '\\') ∧ plainStrL p.2) →
      parseRulesAux f (joinComma (rules.map ruleEntryJson) ++ '\x7d' :: rest) =
        some (rules, rest) := by
  intro rules
  induction rules with
  | nil => intro f rest h _ _; exact absurd rfl h
  | cons p ps ih =>
    intro f rest _ hf hwf
    have hf1 : 1 ≤ f := le_trans (by simp) hf
    obtain ⟨fm, rfl⟩ : ∃ fm, f = fm + 1 := ⟨f - 1, by omega⟩
    obtain ⟨hkey, hval⟩ := hwf p (by simp)
    have hk1 : p.1 ≠ '"' := hkey.2.2.1
    have hk2 : p.1 ≠ '\\' := hkey.2.2.2
    cases ps with
    | nil =>
      rw [List.map_cons, List.map_nil, joinComma, ruleEntryJson,
        jsonStr_plain (String.mk [p.1]) (by intro ch hc; simp at hc; subst hc; exact hkey),
        jsonStr_plain p.2 hval]
      simp only [List.cons_append, List.append_assoc, List.singleton_append, List.nil_append,
        show (String.mk [p.1]).data = [p.1] from rfl]
      have hv := fun (X : List Char) => parseJStrAux_plain p.2.data X (plain_ne _ hval)
      rw [parseRulesAux.eq_def]
      simp [hv, parseJStr_single p.1 hk1 hk2, parseLit, string_mk_data]
    | cons q qs =>
      rw [List.map_cons, List.map_cons, joinComma, ruleEntryJson,
        jsonStr_plain (String.mk [p.1]) (by intro ch hc; simp at hc; subst hc; exact hkey),
        jsonStr_plain p.2 hval]
      simp only [List.cons_append, List.append_assoc, List.singleton_append, List.nil_append,
        show (String.mk [p.1]).data = [p.1] from rfl,
        show (", ".data : List Char) = [',', ' '] from rfl]
      have hv := fun (X : List Char) => parseJStrAux_plain p.2.data X (plain_ne _ hval)
      rw [List.map_cons] at ih
      have hih := ih fm rest (by simp) (by simp at hf ⊢; omega)
        (fun x hx => hwf x (by simp [hx]))
      rw [parseRulesAux.eq_def]
      simp [hv, parseJStr_single p.1 hk1 hk2, parseLit, string_mk_data, hih]

lemma ruleEntryJson_len (p : Char × String) : 1 ≤ (ruleEntryJson p).length := by
  rw [ruleEntryJson, jsonStr]
  simp

lemma joinComma_rules_len : ∀ rules : List (Char × String),
    rules.length ≤ (joinComma (rules.map ruleEntryJson)).length := by
  intro rules
  induction rules with
  | nil => simp [joinComma]
  | cons p ps ih =>
    cases ps with
    | nil =>
      rw [List.map_cons, List.map_nil, joinComma]
      simpa using ruleEntryJson_len p
    | cons q qs =>
      rw [List.map_cons, List.map_cons, joinComma]
      have h1 := ruleEntryJson_len p
      rw [List.map_cons] at ih
      simp only [List.length_append, List.length_cons]
      simp only [List.length_cons] at ih
      simp
      omega

lemma parseRules_encode (rules : List (Char × String))
    (hwf : ∀ p ∈ rules, (32 ≤ p.1.toNat ∧ p.1.toNat < 127 ∧ p.1 ≠ '"' ∧ p.1 ≠ '\\') ∧ plainStrL p.2)
    (rest : List Char) :
    parseRules (joinComma (rules.map ruleEntryJson) ++ '\x7d' :: rest) = some (rules, rest) := by
  cases rules with
  | nil => simp [joinComma, parseRules]
  | cons p ps =>
    have hlen : (p :: ps).length ≤ (joinComma ((p :: ps).map ruleEntryJson) ++ '\x7d' :: rest).length := by
      have := joinComma_rules_len (p :: ps)
      simp only [List.length_append]
      omega
    have henc := parseRulesAux_encode (p :: ps)
      ((joinComma ((p :: ps).map ruleEntryJson) ++ '\x7d' :: rest).length) rest
      (by simp) hlen hwf
    obtain ⟨hkey, hval⟩ := hwf p (by simp)
    rw [parseRules.eq_def]
    -- expose the leading quote of the first entry so the match picks the
    -- fall-through branch
    rw [List.map_cons]
    cases ps with
    | nil =>
      rw [List.map_nil, joinComma, ruleEntryJson,
        jsonStr_plain (String.mk [p.1]) (by intro ch hc; simp at hc; subst hc; exact hkey)]
      rw [List.map_cons, List.map_nil, joinComma, ruleEntryJson,
        jsonStr_plain (String.mk [p.1]) (by intro ch hc; simp at hc; subst hc; exact hkey)] at henc
      simp only [List.cons_append] at henc ⊢
      exact henc
    | cons q qs =>
      rw [List.map_cons, joinComma, ruleEntryJson,
        jsonStr_plain (String.mk [p.1]) (by intro ch hc; simp at hc; subst hc; exact hkey)]
      rw [List.map_cons, List.map_cons, joinComma, ruleEntryJson,
        jsonStr_plain (String.mk [p.1]) (by intro ch hc; simp at hc; subst hc; exact hkey)] at henc
      simp only [List.cons_append, List.append_assoc] at henc ⊢
      exact henc

lemma parseParams_encode (p : GenParams) (hw : wfParams p) (rest : List Char) :
    parseParams (paramsJson p ++ rest) = some (p, rest) := by
  cases p with
  | empty =>
    simp [paramsJson, parseParams]
  | count n =>
    rw [paramsJson]
    simp only [jsonInt]
    simp [parseParams, parseLit, parseInt_cons, isDigitCh, Option.bind_eq_bind,
      Option.some_bind, List.cons_append, List.append_assoc]
  | lsys rules iters =>
    rw [paramsJson, rulesJson]
    simp only [jsonInt]
    have hpr := fun (X : List Char) => parseRules_encode rules hw X
    simp [parseParams, parseLit, parseInt_cons, isDigitCh, hpr, Option.bind_eq_bind,
      Option.some_bind, List.cons_append, List.append_assoc]

lemma not_digit_of_head (l rest : List Char) (hne : l ≠ [])
    (h : isDigitCh (l.headD 'Z') = false) :
    ∀ r t, (l ++ rest) = r :: t → isDigitCh r = false := by
  cases l with
  | nil => exact absurd rfl hne
  | cons c cs =>
    intro r t he
    rw [List.cons_append] at he
    injection he with h1 _
    rw [← h1]
    exact h

lemma parseInt_lit (i : Int) (s : String) (Y : List Char)
    (hne : s.data ≠ []) (h : isDigitCh (s.data.headD 'Z') = false) :
    parseInt (intDec i ++ (s.data ++ Y)) = some (i, s.data ++ Y) :=
  parseInt_intDec i _ (not_digit_of_head _ _ hne h)

lemma parseNat_lit (n : Nat) (s : String) (Y : List Char)
    (hne : s.data ≠ []) (h : isDigitCh (s.data.headD 'Z') = false) :
    parseNat (natDec n ++ (s.data ++ Y)) = some (n, s.data ++ Y) :=
  parseNat_natDec n _ (not_digit_of_head _ _ hne h)

lemma parseInt_natDec_lit (n : Nat) (s : String) (Y : List Char)
    (hne : s.data ≠ []) (h : isDigitCh (s.data.headD 'Z') = false) :
    parseInt (natDec n ++ (s.data ++ Y)) = some ((n : Int), s.data ++ Y) := by
  have := parseInt_lit (n : Int) s Y hne h
  rw [intDec_ofNat] at this
  exact this

lemma parseLit_refl (l : List Char) : parseLit l l = some [] := by
  have := parseLit_append l []
  rwa [List.append_nil] at this

lemma false_lit_cons (X : List Char) :
    ("false".data : List Char) ++ X = 'f' :: 'a' :: 'l' :: 's' :: 'e' :: X := rfl

lemma true_lit_cons (X : List Char) :
    ("true".data : List Char) ++ X = 't' :: 'r' :: 'u' :: 'e' :: X := rfl

set_option maxHeartbeats 3200000 in
/-- The payload emitted by `to_bytes` parses back to its own fields. -/
lemma payloadParse_encode (c : CompressedData) (hw : wfContainer c) :
    payloadParse (payloadChars c) =
      some ((c.compression_type.value : Int), jseedOf c.seed, c.seed.isBytes,
        c.generator_params, c.original_size, c.original_hash) := by
  obtain ⟨hhash, hseed, hparams, _⟩ := hw
  rw [payloadChars, jsonStr_plain c.original_hash hhash]
  cases hsb : c.seed.isBytes
  · simp only [Bool.false_eq_true, if_false]
    simp only [List.append_assoc]
    rw [payloadParse]
    simp only [Option.bind_eq_bind]
    rw [parseLit_append]
    simp only [Option.some_bind]
    rw [parseInt_natDec_lit c.compression_type.value ", \"seed\": " _ (by decide) (by decide)]
    simp only [Option.some_bind]
    try dsimp only
    rw [parseLit_append]
    simp only [Option.some_bind]
    rw [parseSeed_encode c.seed hseed]
    simp only [Option.some_bind]
    try dsimp only
    rw [parseLit_append]
    simp only [Option.some_bind]
    rw [false_lit_cons]
    try dsimp only
    simp only [Option.some_bind]
    rw [parseLit_append]
    simp only [Option.some_bind]
    rw [parseParams_encode c.generator_params hparams]
    simp only [Option.some_bind]
    try dsimp only
    rw [parseLit_append]
    simp only [Option.some_bind]
    rw [parseNat_lit c.original_size ", \"hash\": " _ (by decide) (by decide)]
    simp only [Option.some_bind]
    try dsimp only
    rw [parseLit_append]
    simp only [Option.some_bind]
    rw [List.cons_append, List.append_assoc, List.singleton_append]
    show ((Option.map (fun p => (String.mk p.1, p.2))
          (parseJStrAux (c.original_hash.data ++ ['\"', '\x7d']))).bind
        fun a => (parseLit ['\x7d'] a.2).bind fun a1 =>
          match a1 with
          | [] => some ((c.compression_type.value : Int), jseedOf c.seed, false,
              c.generator_params, c.original_size, a.1)
          | _ => none) =
      some ((c.compression_type.value : Int), jseedOf c.seed, false,
        c.generator_params, c.original_size, c.original_hash)
    rw [parseJStrAux_plain c.original_hash.data ['\x7d'] (plain_ne _ hhash)]
    rw [show Option.map (fun (p : List Char × List Char) => (String.mk p.1, p.2)) (some (c.original_hash.data, ['\x7d'])) = some (String.mk c.original_hash.data, ['\x7d']) from rfl]
    simp only [Option.some_bind]
    rw [parseLit_refl]
    simp only [Option.some_bind]
  · simp only [if_true]
    simp only [List.append_assoc]
    rw [payloadParse]
    simp only [Option.bind_eq_bind]
    rw [parseLit_append]
    simp only [Option.some_bind]
    rw [parseInt_natDec_lit c.compression_type.value ", \"seed\": " _ (by decide) (by decide)]
    simp only [Option.some_bind]
    try dsimp only
    rw [parseLit_append]
    simp only [Option.some_bind]
    rw [parseSeed_encode c.seed hseed]
    simp only [Option.some_bind]
    try dsimp only
    rw [parseLit_append]
    simp only [Option.some_bind]
    rw [true_lit_cons]
    try dsimp only
    simp only [Option.some_bind]
    rw [parseLit_append]
    simp only [Option.some_bind]
    rw [parseParams_encode c.generator_params hparams]
    simp only [Option.some_bind]
    try dsimp only
    rw [parseLit_append]
    simp only [Option.some_bind]
    rw [parseNat_lit c.original_size ", \"hash\": " _ (by decide) (by decide)]
    simp only [Option.some_bind]
    try dsimp only
    rw [parseLit_append]
    simp only [Option.some_bind]
    rw [List.cons_append, List.append_assoc, List.singleton_append]
    show ((Option.map (fun p => (String.mk p.1, p.2))
          (parseJStrAux (c.original_hash.data ++ ['\"', '\x7d']))).bind
        fun a => (parseLit ['\x7d'] a.2).bind fun a1 =>
          match a1 with
          | [] => some ((c.compression_type.value : Int), jseedOf c.seed, true,
              c.generator_params, c.original_size, a.1)
          | _ => none) =
      some ((c.compression_type.value : Int), jseedOf c.seed, true,
        c.generator_params, c.original_size, c.original_hash)
    rw [parseJStrAux_plain c.original_hash.data ['\x7d'] (plain_ne _ hhash)]
    rw [show Option.map (fun (p : List Char × List Char) => (String.mk p.1, p.2)) (some (c.original_hash.data, ['\x7d'])) = some (String.mk c.original_hash.data, ['\x7d']) from rfl]
    simp only [Option.some_bind]
    rw [parseLit_refl]
    simp only [Option.some_bind]

/-! ## ASCII payloads and the serialization round trip (claim C7) -/

lemma ascii_of_plain (s : String) (h : plainStrL s) : asciiL s.data := by
  intro c hc
  have := h c hc
  omega

lemma ascii_jsonStr (s : String) (h : plainStrL s) : asciiL (jsonStr s) := by
  rw [jsonStr_plain s h]
  intro c hc
  rcases List.mem_cons.mp hc with h1 | h1
  · subst h1; decide
  · rcases List.mem_append.mp h1 with h2 | h2
    · exact ascii_of_plain s h c h2
    · simp at h2; subst h2; decide

lemma ascii_intDec (i : Int) : asciiL (intDec i) := by
  rw [intDec]
  by_cases hneg : i < 0
  · rw [if_pos hneg]
    intro c hc
    rcases List.mem_cons.mp hc with h1 | h1
    · subst h1; decide
    · exact ascii_natDec _ c h1
  · rw [if_neg hneg]
    exact ascii_natDec _

lemma ascii_jsonInt (i : Int) : asciiL (jsonInt i) := ascii_intDec i

lemma ascii_seqSeedJson (q : SeqSeed) (hw : wfSeed (.seq q)) : asciiL (seqSeedJson q) := by
  cases q with
  | geometric a r n => exact hw.elim
  | arithmetic a st n =>
    rw [seqSeedJson]
    repeat' apply asciiL_append
    all_goals first | decide | exact ascii_jsonInt _
  | fibonacci a b n =>
    rw [seqSeedJson]
    repeat' apply asciiL_append
    all_goals first | decide | exact ascii_jsonInt _
  | powers b n =>
    rw [seqSeedJson]
    repeat' apply asciiL_append
    all_goals first | decide | exact ascii_jsonInt _
  | primes n =>
    rw [seqSeedJson]
    repeat' apply asciiL_append
    all_goals first | decide | exact ascii_jsonInt _

lemma ascii_joinComma (L : List (List Char)) (h : ∀ x ∈ L, asciiL x) :
    asciiL (joinComma L) := by
  induction L with
  | nil => intro c hc; simp [joinComma] at hc
  | cons x rest ih =>
    cases rest with
    | nil => simpa [joinComma] using h x (by simp)
    | cons y t =>
      rw [joinComma]
      refine asciiL_append (asciiL_append (h x (by simp)) (by decide)) (ih ?_)
      intro z hz
      exact h z (by simp [hz])

lemma ascii_ruleEntry (p : Char × String)
    (hk : 32 ≤ p.1.toNat ∧ p.1.toNat < 127 ∧ p.1 ≠ '"' ∧ p.1 ≠ '\\')
    (hv : plainStrL p.2) : asciiL (ruleEntryJson p) := by
  rw [ruleEntryJson]
  refine asciiL_append (asciiL_append (ascii_jsonStr _ ?_) (by decide)) (ascii_jsonStr _ hv)
  intro c hc
  rw [show (String.mk [p.1]).data = [p.1] from rfl] at hc
  simp at hc
  subst hc
  exact hk

lemma ascii_paramsJson (p : GenParams) (hw : wfParams p) : asciiL (paramsJson p) := by
  cases p with
  | empty => decide
  | count n =>
    rw [paramsJson]
    repeat' apply asciiL_append
    all_goals first | decide | exact ascii_jsonInt _
  | lsys rules iterations =>
    rw [paramsJson, rulesJson]
    repeat' apply asciiL_append
    all_goals first
      | decide
      | exact ascii_jsonInt _
      | exact ascii_joinComma _ (by
          intro x hx
          rcases List.mem_map.mp hx with ⟨q, hq, rfl⟩
          exact ascii_ruleEntry q (hw q hq).1 (hw q hq).2)

lemma ascii_seedJson (s : Seed) (hw : wfSeed s) : asciiL (seedJson s) := by
  cases s with
  | bytes b => exact ascii_jsonStr _ (hexEncode_plain b hw)
  | str x => exact ascii_jsonStr _ hw
  | seq q => exact ascii_seqSeedJson q hw

lemma ascii_quoted (s : String) (h : plainStrL s) :
    asciiL ('"' :: (s.data ++ ['"'])) := by
  intro ch hch
  rcases List.mem_cons.mp hch with h1 | h1
  · subst h1; decide
  · rcases List.mem_append.mp h1 with h2 | h2
    · have := h ch h2; omega
    · simp at h2; subst h2; decide

lemma ascii_payload (c : CompressedData) (hw : wfContainer c) :
    asciiL (payloadChars c) := by
  obtain ⟨hhash, hseed, hparams, _⟩ := hw
  rw [payloadChars, jsonStr_plain c.original_hash hhash]
  repeat' apply asciiL_append
  all_goals first
    | decide
    | exact ascii_natDec _
    | exact ascii_seedJson _ hseed
    | exact ascii_paramsJson _ hparams
    | exact ascii_quoted _ hhash
    | (cases c.seed.isBytes <;> decide)

lemma utf8DecodeAux_nil (f : Nat) : utf8DecodeAux f [] = some [] := by
  cases f <;> rfl

lemma charUtf8_ascii (c : Char) (h : c.toNat < 128) : charUtf8 c = [c.toNat] := by
  rw [charUtf8.eq_def]
  try dsimp only
  rw [if_pos h]

lemma utf8Step_ascii (b : Nat) (h : b < 128) (rest : Bytes) :
    utf8Step b rest = some (Char.ofNat b, rest) := by
  rw [utf8Step.eq_def]
  rw [if_pos h]

lemma utf8EncodeL_cons_ascii (c : Char) (h : c.toNat < 128) (rest : List Char) :
    utf8EncodeL (c :: rest) = c.toNat :: utf8EncodeL rest := by
  rw [utf8EncodeL, List.map_cons, List.flatten_cons, charUtf8_ascii c h]
  rfl

lemma utf8DecodeAux_ascii : ∀ (s : List Char) (f : Nat), asciiL s → s.length ≤ f →
    utf8DecodeAux f (utf8EncodeL s) = some s := by
  intro s
  induction s with
  | nil =>
    intro f _ _
    rw [show utf8EncodeL [] = [] from rfl]
    exact utf8DecodeAux_nil f
  | cons c rest ih =>
    intro f hA hf
    have h128 : c.toNat < 128 := hA c (by simp)
    have hrest : asciiL rest := fun x hx => hA x (by simp [hx])
    cases f with
    | zero => simp at hf
    | succ g =>
      rw [utf8EncodeL_cons_ascii c h128]
      rw [utf8DecodeAux]
      rw [utf8Step_ascii c.toNat h128]
      try dsimp only
      have hlen : rest.length ≤ g := by
        simp only [List.length_cons] at hf
        omega
      rw [ih g hrest hlen]
      try dsimp only
      rw [Char.ofNat_toNat]

lemma utf8_roundtrip_ascii (s : List Char) (h : asciiL s) :
    utf8DecodeL (utf8EncodeL s) = some s := by
  rw [utf8DecodeL, utf8EncodeL_length_ascii s h]
  exact utf8DecodeAux_ascii s s.length h (le_refl _)

lemma to_bytes_eq (c : CompressedData) :
    to_bytes c = 83 :: 69 :: 77 :: 67 :: 1 ::
      (u32le (utf8EncodeL (payloadChars c)).length ++ utf8EncodeL (payloadChars c)) := rfl

lemma le32val_u32le (n : Nat) (h : n < 2 ^ 32) (rest : Bytes) :
    le32val (u32le n ++ rest) = n := by
  show le32val (n % 256 :: n / 256 % 256 :: n / 65536 % 256 :: n / 16777216 % 256 :: rest) = n
  rw [le32val]
  omega

lemma from_bytes_header (P : Bytes) (hP : P.length < 2 ^ 32) :
    from_bytes (83 :: 69 :: 77 :: 67 :: 1 :: (u32le P.length ++ P)) =
      match utf8DecodeL P with
      | none => .error "UnicodeDecodeError"
      | some chars => decodePayload chars := by
  rw [from_bytes]
  rw [if_neg (show ¬(((83:Nat) :: 69 :: 77 :: 67 :: 1 :: (u32le P.length ++ P)).take 4
    ≠ MAGIC_BYTES) from not_not_intro rfl)]
  show (if (1 : Nat) ≠ VERSION_NUM then _ else _) = _
  rw [if_neg (show ¬((1:Nat) ≠ VERSION_NUM) from not_not_intro rfl)]
  rw [if_neg (show ¬((((83:Nat) :: 69 :: 77 :: 67 :: 1 :: (u32le P.length ++ P)).drop 5).length
    < 4) by simp [u32le])]
  show (match utf8DecodeL ((u32le P.length ++ P).drop 4 |>.take
    (le32val (u32le P.length ++ P))) with
    | none => Except.error "UnicodeDecodeError"
    | some chars => decodePayload chars) = _
  rw [show (u32le P.length ++ P).drop 4 = P from rfl]
  rw [le32val_u32le P.length hP]
  rw [List.take_length]

lemma ofValue_value (ct : CompressionType) :
    CompressionType.ofValue ((ct.value : Nat) : Int) = some ct := by
  cases ct <;> rfl

lemma decodePayload_encode (c : CompressedData) (hw : wfContainer c) :
    decodePayload (payloadChars c) = .ok c := by
  rw [decodePayload, payloadParse_encode c hw]
  obtain ⟨hhash, hseed, hparams, hlen⟩ := hw
  obtain ⟨ct, sd, par, os, hs⟩ := c
  dsimp only
  cases sd with
  | bytes b =>
    dsimp only [Seed.isBytes, jseedOf]
    rw [if_pos rfl]
    try dsimp only
    rw [hexDecode_hexEncode b hseed]
    try rw [show Option.map Seed.bytes (some b) = some (Seed.bytes b) from rfl]
    try dsimp only
    rw [ofValue_value ct]
    try dsimp only
    try rfl
  | str x =>
    dsimp only [Seed.isBytes, jseedOf]
    rw [if_neg Bool.false_ne_true]
    try dsimp only
    rw [ofValue_value ct]
    try dsimp only
    try rfl
  | seq qq =>
    dsimp only [Seed.isBytes, jseedOf]
    rw [if_neg Bool.false_ne_true]
    try dsimp only
    rw [ofValue_value ct]
    try dsimp only
    try rfl

lemma from_bytes_to_bytes (c : CompressedData) (hw : wfContainer c) :
    from_bytes (to_bytes c) = .ok c := by
  rw [to_bytes_eq c, from_bytes_header _ hw.2.2.2]
  rw [utf8_roundtrip_ascii _ (ascii_payload c hw)]
  exact decodePayload_encode c hw

def demoContainer : CompressedData :=
  ⟨.PATTERN_REPEAT, .bytes [65, 66], .count 3, 6, "abc123"⟩

/-- C7: `CompressedData.from_bytes` raises a format error when the first four
bytes are not the magic value, and when the version byte differs from the
supported version; a serialized container has the layout
`MAGIC(4) | VERSION(1) | payload length as 4-byte little-endian uint32 |
UTF-8 payload`; and parsing a well-formed serialized container reconstructs
the original kind, seed, original_size and digest (bytes seeds hex-encoded in
the payload and decoded on parse). -/
theorem C7_container_format :
    (∀ data : Bytes, data.take 4 ≠ MAGIC_BYTES →
      from_bytes data = .error "Not a semantic compressed file") ∧
    (∀ (data : Bytes) (v : Nat), data.take 4 = MAGIC_BYTES → data[4]? = some v →
      v ≠ VERSION_NUM →
      from_bytes data = .error ("Unsupported version: " ++ String.mk (natDec v))) ∧
    (∀ c : CompressedData,
      to_bytes c = MAGIC_BYTES ++ [VERSION_NUM] ++
        u32le (utf8EncodeL (payloadChars c)).length ++ utf8EncodeL (payloadChars c)) ∧
    (∀ c : CompressedData, wfContainer c → from_bytes (to_bytes c) = .ok c) := by
  refine ⟨?_, ?_, ?_, ?_⟩
  · intro data h
    rw [from_bytes, if_pos h]
  · intro data v h4 hv hne
    rw [from_bytes, if_neg (not_not_intro h4), hv]
    try dsimp only
    rw [if_pos hne]
  · intro c
    rfl
  · exact fun c hw => from_bytes_to_bytes c hw

/-- Witness for C7 at concrete inputs: a blob with a bad magic, a container
with version byte 9, and a round trip through a concrete container. -/
theorem C7_witness :
    from_bytes [0, 1, 2, 3, 4] = .error "Not a semantic compressed file" ∧
    from_bytes (83 :: 69 :: 77 :: 67 :: 9 :: u32le 0) =
      .error ("Unsupported version: " ++ String.mk (natDec 9)) ∧
    from_bytes (to_bytes demoContainer) = .ok demoContainer :=
  ⟨C7_container_format.1 _ (by decide),
   C7_container_format.2.1 _ 9 (by decide) (by decide) (by decide),
   C7_container_format.2.2.2 demoContainer
     ⟨by decide, (show ∀ x ∈ ([65, 66] : Bytes), x < 256 by decide), trivial, by decide⟩⟩
